import Mathlib

/-!
Shallow embedding of the ministark Merkle commitment subsystem
(`src/merkle.rs`) and of the prover pipeline (`mini-stark/src/prover.rs`),
with proofs of the behavioural properties stated in the specification.

Hash functions and digests are kept abstract: a `MerkleConfig` packages the
leaf type, the digest type, the leaf-pair hash (`MerkleTreeConfig::hash_leaves`)
and the internal two-update hash (`Digest::new(); update; update; finalize`),
together with the default digest used by `vec![Output::default(); n]` and a
default leaf returned by out-of-range reads (the Rust code never performs such
a read on the paths verified here).
-/

namespace MiniStark

/-- Arithmetic fact used for the proof-path index walk: `xor` with `1`
decomposes through division and parity. -/
theorem xor_one_eq (t : Nat) : t ^^^ 1 = 2 * (t / 2) + (t + 1) % 2 := by
  have hd : (t ^^^ 1) / 2 = t / 2 := by
    rw [Nat.xor_div_two]
    norm_num
  have hm : (t ^^^ 1) % 2 = (t + 1) % 2 := by
    rw [Nat.xor_mod_two_eq]
  omega

/-- On even numbers, `t ^ 1` (Rust xor) is `t + 1`. -/
theorem xor_one_of_even {t : Nat} (h : t % 2 = 0) : t ^^^ 1 = t + 1 := by
  have := xor_one_eq t
  omega

/-- On odd numbers, `t ^ 1` (Rust xor) is `t - 1`. -/
theorem xor_one_of_odd {t : Nat} (h : t % 2 = 1) : t ^^^ 1 = t - 1 := by
  have := xor_one_eq t
  omega

/-- `Array.getD` through the optional read. -/
theorem arrGetD_eq {α : Type} (a : Array α) (i : Nat) (d : α) :
    a.getD i d = a[i]?.getD d := by
  rw [Array.getD_get?]
  rfl

/-- Reading back the index just written by `Array.setD`. -/
theorem getD_setD_self {α : Type} (a : Array α) (i : Nat) (v d : α)
    (h : i < a.size) : (a.setD i v).getD i d = v := by
  rw [arrGetD_eq, Array.getElem?_setD_eq a h v]
  rfl

/-- `Array.setD` leaves every other index unchanged. -/
theorem getD_setD_ne {α : Type} (a : Array α) (i j : Nat) (v d : α)
    (h : i ≠ j) : (a.setD i v).getD j d = a.getD j d := by
  rw [arrGetD_eq, arrGetD_eq]
  congr 1
  unfold Array.setD
  split
  · exact Array.get?_set_ne a ⟨i, _⟩ v h
  · rfl

/-- The Merkle tree error enum (`Error` in merkle.rs). -/
inductive MerkleError where
  | TooFewLeaves (expected actual : Nat)
  | NumberOfLeavesNotPowerOfTwo (n : Nat)
  | LeafIndexOutOfBounds (i n : Nat)
  | InvalidProof
deriving DecidableEq, Repr

/-- Capability bundle of `MerkleTreeConfig`: abstract digest and leaf types,
the leaf-pair hash, the internal-node hash, and default values. -/
structure MerkleConfig (Leaf Digest : Type) where
  hash_leaves : Leaf → Leaf → Digest
  hashNodes : Digest → Digest → Digest
  dflt : Digest
  dleaf : Leaf

/-- A Merkle inclusion proof (`MerkleProof` in merkle.rs): the leaf, its
sibling leaf, and the co-path of digests. -/
structure MerkleProof (Leaf Digest : Type) where
  path : List Digest
  sibling : Leaf
  leaf : Leaf

/-- Semantics of `usize::is_power_of_two` (Rust std): `n` is an exact power
of two. -/
def is_power_of_two (n : Nat) : Bool := n == 2 ^ Nat.log2 n

/-- The first-layer loop of the sequential `build_merkle_nodes_default`:
`for i in 0..n/2 { nodes[n/2 + i] = hash_leaves(&leaves[i*2], &leaves[i*2+1]) }`,
as a recursion on the number of iterations (ascending order of `i`). -/
def firstLayer {L D : Type} (C : MerkleConfig L D) (leaves : List L)
    (nodes : Array D) : Nat → Array D
  | 0 => nodes
  | c + 1 =>
      (firstLayer C leaves nodes c).setD (leaves.length / 2 + c)
        (C.hash_leaves (leaves.getD (c * 2) C.dleaf)
          (leaves.getD (c * 2 + 1) C.dleaf))

/-- The descending internal-hash loop
`for k in (start..start+b).rev() { nodes[k] = H(nodes[k*2] ‖ nodes[k*2+1]) }`,
shared by the sequential build (`(1..n/2).rev()`), the parallel worker ascent
and the parallel tip (`(1..num_subtrees).rev()`). The counter argument is the
number of remaining iterations; the highest index is processed first. -/
def hashRangeRev {L D : Type} (C : MerkleConfig L D) (nodes : Array D)
    (start : Nat) : Nat → Array D
  | 0 => nodes
  | b + 1 =>
      hashRangeRev C
        (nodes.setD (start + b)
          (C.hashNodes (nodes.getD ((start + b) * 2) C.dflt)
            (nodes.getD ((start + b) * 2 + 1) C.dflt)))
        start b

/-- Sequential `build_merkle_nodes_default` (merkle.rs, non-parallel variant):
allocate `n` default digests, hash leaf pairs into `nodes[n/2..n]`, then hash
internal nodes downward from `n/2 - 1` to `1`. -/
def build_merkle_nodes {L D : Type} (C : MerkleConfig L D)
    (leaves : List L) : Array D :=
  let n := leaves.length
  hashRangeRev C (firstLayer C leaves (Array.mkArray n C.dflt) (n / 2)) 1
    (n / 2 - 1)

/-- `MerkleTreeImpl`: node array plus retained leaves. -/
structure MerkleTreeImpl (Leaf Digest : Type) where
  nodes : Array Digest
  leaves : List Leaf

/-- `MerkleTreeImpl::new`: reject fewer than two leaves, then a non-power-of-two
count, otherwise build the node array. -/
def MerkleTreeImpl.new {L D : Type} (C : MerkleConfig L D) (leaves : List L) :
    Except MerkleError (MerkleTreeImpl L D) :=
  let n := leaves.length
  if n < 2 then
    .error (.TooFewLeaves 2 n)
  else if !is_power_of_two n then
    .error (.NumberOfLeavesNotPowerOfTwo n)
  else
    .ok { nodes := build_merkle_nodes C leaves, leaves := leaves }

/-- `MerkleTreeImpl::root`: the digest stored at index 1. -/
def MerkleTreeImpl.root {L D : Type} (C : MerkleConfig L D)
    (t : MerkleTreeImpl L D) : D :=
  t.nodes.getD 1 C.dflt

/-- The co-path collection loop of `prove`:
`while index > 1 { path.push(nodes[index ^ 1]); index >>= 1 }`. -/
def provePathLoop {D : Type} (nodes : Array D) (d : D) (idx : Nat) : List D :=
  if h1 : 1 < idx then
    nodes.getD (idx ^^^ 1) d :: provePathLoop nodes d (idx >>> 1)
  else
    []
termination_by idx
decreasing_by
  rw [Nat.shiftRight_one]
  omega

/-- `MerkleTreeImpl::prove`: bounds check, then leaf, sibling (`index ^ 1`)
and the co-path walked from `(index + nodes.len()) >> 1`. -/
def MerkleTreeImpl.prove {L D : Type} (C : MerkleConfig L D)
    (t : MerkleTreeImpl L D) (index : Nat) :
    Except MerkleError (MerkleProof L D) :=
  if t.leaves.length ≤ index then
    .error (.LeafIndexOutOfBounds index t.leaves.length)
  else
    .ok { leaf := t.leaves.getD index C.dleaf,
          sibling := t.leaves.getD (index ^^^ 1) C.dleaf,
          path := provePathLoop t.nodes C.dflt ((index + t.nodes.size) >>> 1) }

/-- The hash-chain loop of `verify`: combine the running hash with each path
digest on the side selected by the parity of the walked index. -/
def verifyLoop {L D : Type} (C : MerkleConfig L D) (h : D) (index : Nat) :
    List D → D
  | [] => h
  | p :: rest =>
      verifyLoop C (if index % 2 = 0 then C.hashNodes h p else C.hashNodes p h)
        (index >>> 1) rest

/-- `MerkleTreeImpl::verify`: hash leaf and sibling in index-parity order,
walk the path, and compare with the root. -/
def MerkleTreeImpl.verify {L D : Type} [DecidableEq D] (C : MerkleConfig L D)
    (root : D) (proof : MerkleProof L D) (index : Nat) :
    Except MerkleError Unit :=
  let h0 :=
    if index % 2 = 0 then C.hash_leaves proof.leaf proof.sibling
    else C.hash_leaves proof.sibling proof.leaf
  let h := verifyLoop C h0 (index >>> 1) proof.path
  if root = h then .ok () else .error .InvalidProof

/-- The value the build loops leave at node index `i` (for `1 ≤ i < n`):
the layer above the leaves hashes leaf pairs, every other layer hashes its
two children. Index `0` is unused and keeps the default digest. -/
def nodeSpec {L D : Type} (C : MerkleConfig L D) (leaves : List L)
    (i : Nat) : D :=
  if h : leaves.length / 2 ≤ i then
    C.hash_leaves (leaves.getD (i * 2 - leaves.length) C.dleaf)
      (leaves.getD (i * 2 - leaves.length + 1) C.dleaf)
  else if h0 : i = 0 then
    C.dflt
  else
    C.hashNodes (nodeSpec C leaves (i * 2)) (nodeSpec C leaves (i * 2 + 1))
termination_by leaves.length - i
decreasing_by
  · omega
  · omega

/-- Unfolding `nodeSpec` on the leaf-pair layer. -/
theorem nodeSpec_leaf {L D : Type} (C : MerkleConfig L D) (leaves : List L)
    (i : Nat) (h : leaves.length / 2 ≤ i) :
    nodeSpec C leaves i =
      C.hash_leaves (leaves.getD (i * 2 - leaves.length) C.dleaf)
        (leaves.getD (i * 2 - leaves.length + 1) C.dleaf) := by
  rw [nodeSpec]
  simp [h]

/-- Unfolding `nodeSpec` on an internal node. -/
theorem nodeSpec_inner {L D : Type} (C : MerkleConfig L D) (leaves : List L)
    (i : Nat) (h1 : 1 ≤ i) (h2 : i < leaves.length / 2) :
    nodeSpec C leaves i =
      C.hashNodes (nodeSpec C leaves (i * 2)) (nodeSpec C leaves (i * 2 + 1)) := by
  rw [nodeSpec]
  have hn : ¬ leaves.length / 2 ≤ i := by omega
  have h0 : i ≠ 0 := by omega
  simp [hn, h0]

/-- `firstLayer` preserves the array size. -/
theorem firstLayer_size {L D : Type} (C : MerkleConfig L D) (leaves : List L)
    (nodes : Array D) (c : Nat) :
    (firstLayer C leaves nodes c).size = nodes.size := by
  induction c with
  | zero => rfl
  | succ c ih => rw [firstLayer, Array.size_setD, ih]

/-- `hashRangeRev` preserves the array size. -/
theorem hashRangeRev_size {L D : Type} (C : MerkleConfig L D)
    (nodes : Array D) (start b : Nat) :
    (hashRangeRev C nodes start b).size = nodes.size := by
  induction b generalizing nodes with
  | zero => rfl
  | succ b ih => rw [hashRangeRev, ih, Array.size_setD]

/-- What `firstLayer` leaves at each index: the leaf-pair hash on the written
band, the previous contents elsewhere. -/
theorem firstLayer_getD {L D : Type} (C : MerkleConfig L D) (leaves : List L)
    (nodes : Array D) (c : Nat) (hsz : leaves.length / 2 + c ≤ nodes.size) :
    ∀ j, (firstLayer C leaves nodes c).getD j C.dflt =
      if leaves.length / 2 ≤ j ∧ j < leaves.length / 2 + c then
        C.hash_leaves (leaves.getD ((j - leaves.length / 2) * 2) C.dleaf)
          (leaves.getD ((j - leaves.length / 2) * 2 + 1) C.dleaf)
      else nodes.getD j C.dflt := by
  induction c with
  | zero =>
    intro j
    have : ¬ (leaves.length / 2 ≤ j ∧ j < leaves.length / 2 + 0) := by omega
    rw [if_neg this]
    rfl
  | succ c ih =>
    intro j
    rw [firstLayer]
    by_cases hj : j = leaves.length / 2 + c
    · subst hj
      rw [getD_setD_self]
      · have hcnd : leaves.length / 2 ≤ leaves.length / 2 + c ∧
            leaves.length / 2 + c < leaves.length / 2 + (c + 1) := by omega
        rw [if_pos hcnd]
        have : leaves.length / 2 + c - leaves.length / 2 = c := by omega
        rw [this]
      · rw [firstLayer_size]
        omega
    · rw [getD_setD_ne _ _ _ _ _ (fun hh => hj hh.symm)]
      rw [ih (by omega) j]
      by_cases hin : leaves.length / 2 ≤ j ∧ j < leaves.length / 2 + c
      · rw [if_pos hin, if_pos (by omega)]
      · rw [if_neg hin, if_neg (by omega)]

/-- `hashRangeRev` does not touch indices outside `[start, start + b)`. -/
theorem hashRangeRev_frame {L D : Type} (C : MerkleConfig L D)
    (nodes : Array D) (start : Nat) :
    ∀ (b : Nat) (j : Nat), (j < start ∨ start + b ≤ j) →
      (hashRangeRev C nodes start b).getD j C.dflt = nodes.getD j C.dflt := by
  intro b
  induction b generalizing nodes with
  | zero => intro j _; rfl
  | succ b ih =>
    intro j hj
    rw [hashRangeRev, ih _ _ (by omega), getD_setD_ne _ _ _ _ _ (by omega)]

/-- Correctness of the descending internal-hash loop: if every index at or
above the write band (up to the children of the band's top) already holds its
`nodeSpec` value, then after the loop every index of the band does too.
The loop processes indices downward, so the children of each write are either
above the band (hypothesis) or were written earlier in the same loop. -/
theorem hashRangeRev_correct {L D : Type} (C : MerkleConfig L D)
    (leaves : List L) :
    ∀ (b : Nat) (nodes : Array D) (start : Nat),
      nodes.size = leaves.length →
      1 ≤ start →
      start + b ≤ leaves.length / 2 →
      (∀ j, start + b ≤ j → 2 * start ≤ j → j < 2 * (start + b) →
        nodes.getD j C.dflt = nodeSpec C leaves j) →
      ∀ j, start ≤ j → j < start + b →
        (hashRangeRev C nodes start b).getD j C.dflt = nodeSpec C leaves j := by
  intro b
  induction b with
  | zero =>
    intro nodes start _ _ _ _ j hj1 hj2
    omega
  | succ b ih =>
    intro nodes start hsz hst hub hcorrect j hj1 hj2
    rw [hashRangeRev]
    set k := start + b with hk
    have hkread : ∀ m, k * 2 ≤ m → m ≤ k * 2 + 1 →
        nodes.getD m C.dflt = nodeSpec C leaves m := by
      intro m hm1 hm2
      exact hcorrect m (by omega) (by omega) (by omega)
    have hwritten : (nodes.setD k
        (C.hashNodes (nodes.getD (k * 2) C.dflt)
          (nodes.getD (k * 2 + 1) C.dflt))).getD k C.dflt =
        nodeSpec C leaves k := by
      rw [getD_setD_self _ _ _ _ (by omega)]
      rw [hkread (k * 2) (by omega) (by omega),
          hkread (k * 2 + 1) (by omega) (by omega)]
      rw [nodeSpec_inner C leaves k (by omega) (by omega)]
    by_cases hjk : j = k
    · rw [hjk]
      rw [hashRangeRev_frame C _ start b k (by omega)]
      exact hwritten
    · apply ih _ start (by rw [Array.size_setD]; exact hsz) hst (by omega)
      · intro m hm1 hm2 hm3
        by_cases hmk : m = k
        · subst hmk
          exact hwritten
        · rw [getD_setD_ne _ _ _ _ _ (fun hh => hmk hh.symm)]
          exact hcorrect m (by omega) (by omega) (by omega)
      · omega
      · omega

/-- After the sequential build, every node index in `[1, n)` holds its
`nodeSpec` value. -/
theorem build_merkle_nodes_getD {L D : Type} (C : MerkleConfig L D)
    (leaves : List L) (k : Nat) (hk : 1 ≤ k) (hn : leaves.length = 2 ^ k) :
    ∀ j, 1 ≤ j → j < leaves.length →
      (build_merkle_nodes C leaves).getD j C.dflt = nodeSpec C leaves j := by
  intro j hj1 hj2
  have h2 : 2 ≤ leaves.length := by
    rw [hn]
    calc 2 = 2 ^ 1 := by norm_num
    _ ≤ 2 ^ k := Nat.pow_le_pow_right (by norm_num) hk
  have heven : leaves.length % 2 = 0 := by
    have hsplit : 2 ^ k = 2 * 2 ^ (k - 1) := by
      conv_lhs => rw [show k = (k - 1) + 1 by omega]
      rw [pow_succ']
    rw [hn, hsplit]
    omega
  have hfl : ∀ m, leaves.length / 2 ≤ m → m < leaves.length →
      (firstLayer C leaves (Array.mkArray leaves.length C.dflt)
        (leaves.length / 2)).getD m C.dflt = nodeSpec C leaves m := by
    intro m hm1 hm2
    rw [firstLayer_getD C leaves _ _ (by rw [Array.size_mkArray]; omega) m]
    rw [if_pos (by omega)]
    rw [nodeSpec_leaf C leaves m hm1]
    have : (m - leaves.length / 2) * 2 = m * 2 - leaves.length := by omega
    rw [this]
  rw [build_merkle_nodes]
  by_cases hhalf : j < leaves.length / 2
  · apply hashRangeRev_correct C leaves (leaves.length / 2 - 1) _ 1
    · rw [firstLayer_size, Array.size_mkArray]
    · omega
    · omega
    · intro m hm1 _ hm3
      exact hfl m (by omega) (by omega)
    · omega
    · omega
  · rw [hashRangeRev_frame C _ 1 (leaves.length / 2 - 1) j (by omega)]
    exact hfl j (by omega) hj2

/-- The built node array has as many slots as there are leaves. -/
theorem build_merkle_nodes_size {L D : Type} (C : MerkleConfig L D)
    (leaves : List L) :
    (build_merkle_nodes C leaves).size = leaves.length := by
  rw [build_merkle_nodes, hashRangeRev_size, firstLayer_size, Array.size_mkArray]

/-- `is_power_of_two` decides exactly the powers of two. -/
theorem is_power_of_two_iff (n : Nat) :
    is_power_of_two n = true ↔ ∃ k, n = 2 ^ k := by
  constructor
  · intro h
    refine ⟨Nat.log2 n, ?_⟩
    simpa [is_power_of_two] using h
  · rintro ⟨k, rfl⟩
    simp [is_power_of_two, Nat.log2_eq_log_two, Nat.log_pow]

/-- Walking the verifier's hash chain from the node the prover's first hash
reconstructs, along the co-path the prover collected, ends at the root node.
The verifier's index `jj` is the prover's node index `jj + 2 ^ m` stripped of
its leading bit, so both walks stay in lockstep. -/
theorem verifyLoop_provePath {L D : Type} (C : MerkleConfig L D)
    (leaves : List L) (nodes : Array D)
    (heven : leaves.length % 2 = 0)
    (hcorrect : ∀ j, 1 ≤ j → j < leaves.length →
      nodes.getD j C.dflt = nodeSpec C leaves j) :
    ∀ (m jj : Nat), jj < 2 ^ m → jj + 2 ^ m < leaves.length →
      verifyLoop C (nodeSpec C leaves (jj + 2 ^ m)) jj
        (provePathLoop nodes C.dflt (jj + 2 ^ m)) = nodeSpec C leaves 1 := by
  intro m
  induction m with
  | zero =>
    intro jj hjj _
    have hj0 : jj = 0 := by omega
    subst hj0
    rw [provePathLoop]
    norm_num
    rfl
  | succ m ih =>
    intro jj hjj hlt
    have hpow : 2 ^ (m + 1) = 2 * 2 ^ m := by
      rw [pow_succ']
    have hidx2 : 2 ≤ jj + 2 ^ (m + 1) := by omega
    rw [provePathLoop]
    rw [dif_pos (by omega)]
    rw [verifyLoop]
    have hshift : (jj + 2 ^ (m + 1)) >>> 1 = jj / 2 + 2 ^ m := by
      rw [Nat.shiftRight_one]
      omega
    have hshiftj : jj >>> 1 = jj / 2 := Nat.shiftRight_one jj
    have h1m : 0 < 2 ^ m := pow_pos (by norm_num) m
    have hparent1 : 1 ≤ jj / 2 + 2 ^ m := by omega
    have hparent2 : jj / 2 + 2 ^ m < leaves.length / 2 := by omega
    have hcomb :
        (if jj % 2 = 0 then
          C.hashNodes (nodeSpec C leaves (jj + 2 ^ (m + 1)))
            (nodes.getD ((jj + 2 ^ (m + 1)) ^^^ 1) C.dflt)
        else
          C.hashNodes (nodes.getD ((jj + 2 ^ (m + 1)) ^^^ 1) C.dflt)
            (nodeSpec C leaves (jj + 2 ^ (m + 1)))) =
        nodeSpec C leaves (jj / 2 + 2 ^ m) := by
      by_cases hpar : jj % 2 = 0
      · rw [if_pos hpar]
        have hxor : (jj + 2 ^ (m + 1)) ^^^ 1 = jj + 2 ^ (m + 1) + 1 :=
          xor_one_of_even (by omega)
        rw [hxor]
        rw [hcorrect (jj + 2 ^ (m + 1) + 1) (by omega) (by omega)]
        rw [nodeSpec_inner C leaves (jj / 2 + 2 ^ m) hparent1 hparent2]
        have hdouble : (jj / 2 + 2 ^ m) * 2 = jj + 2 ^ (m + 1) := by omega
        rw [hdouble]
      · rw [if_neg hpar]
        have hxor : (jj + 2 ^ (m + 1)) ^^^ 1 = jj + 2 ^ (m + 1) - 1 :=
          xor_one_of_odd (by omega)
        rw [hxor]
        rw [hcorrect (jj + 2 ^ (m + 1) - 1) (by omega) (by omega)]
        rw [nodeSpec_inner C leaves (jj / 2 + 2 ^ m) hparent1 hparent2]
        have hdouble : (jj / 2 + 2 ^ m) * 2 = jj + 2 ^ (m + 1) - 1 := by omega
        rw [hdouble]
        have hback : jj + 2 ^ (m + 1) - 1 + 1 = jj + 2 ^ (m + 1) := by omega
        rw [hback]
    rw [hcomb, hshift, hshiftj]
    exact ih (jj / 2) (by omega) (by omega)

/-- Shared round-trip correctness of the Merkle tree: building on a
power-of-two number of leaves succeeds, proving any in-range index succeeds,
and verifying the produced proof against the root succeeds. The proof's leaf
is the indexed leaf. -/
theorem merkle_roundtrip_aux {L D : Type} [DecidableEq D]
    (C : MerkleConfig L D) (leaves : List L) (k i : Nat)
    (hk : 1 ≤ k) (hn : leaves.length = 2 ^ k) (hi : i < leaves.length) :
    ∃ t p, MerkleTreeImpl.new C leaves = .ok t ∧
      MerkleTreeImpl.prove C t i = .ok p ∧
      MerkleTreeImpl.verify C (MerkleTreeImpl.root C t) p i = .ok () ∧
      p.leaf = leaves.getD i C.dleaf := by
  have h2 : 2 ≤ leaves.length := by
    rw [hn]
    calc 2 = 2 ^ 1 := by norm_num
    _ ≤ 2 ^ k := Nat.pow_le_pow_right (by norm_num) hk
  have hpowsplit : 2 ^ k = 2 * 2 ^ (k - 1) := by
    conv_lhs => rw [show k = (k - 1) + 1 by omega]
    rw [pow_succ']
  have heven : leaves.length % 2 = 0 := by omega
  have hcorrect := build_merkle_nodes_getD C leaves k hk hn
  have hp2 : is_power_of_two leaves.length = true :=
    (is_power_of_two_iff _).2 ⟨k, hn⟩
  refine ⟨⟨build_merkle_nodes C leaves, leaves⟩,
    ⟨provePathLoop (build_merkle_nodes C leaves) C.dflt
        ((i + (build_merkle_nodes C leaves).size) >>> 1),
      leaves.getD (i ^^^ 1) C.dleaf, leaves.getD i C.dleaf⟩, ?_, ?_, ?_, rfl⟩
  · rw [MerkleTreeImpl.new]
    rw [if_neg (by omega)]
    rw [if_neg (by simp [hp2])]
  · rw [MerkleTreeImpl.prove]
    rw [if_neg (by show ¬ (leaves.length ≤ i); omega)]
  · rw [MerkleTreeImpl.verify]
    have hsz : (build_merkle_nodes C leaves).size = leaves.length :=
      build_merkle_nodes_size C leaves
    have hroot : MerkleTreeImpl.root C ⟨build_merkle_nodes C leaves, leaves⟩ =
        nodeSpec C leaves 1 := by
      rw [MerkleTreeImpl.root]
      exact hcorrect 1 (by omega) (by omega)
    have hidx0 : (i + (build_merkle_nodes C leaves).size) >>> 1 =
        i / 2 + 2 ^ (k - 1) := by
      rw [Nat.shiftRight_one, hsz, hn]
      omega
    have hh0 :
        (if i % 2 = 0 then
          C.hash_leaves (leaves.getD i C.dleaf) (leaves.getD (i ^^^ 1) C.dleaf)
        else
          C.hash_leaves (leaves.getD (i ^^^ 1) C.dleaf) (leaves.getD i C.dleaf)) =
        nodeSpec C leaves (i / 2 + 2 ^ (k - 1)) := by
      rw [nodeSpec_leaf C leaves _ (by omega)]
      by_cases hpar : i % 2 = 0
      · rw [if_pos hpar, xor_one_of_even hpar]
        have e1 : (i / 2 + 2 ^ (k - 1)) * 2 - leaves.length = i := by omega
        rw [e1]
      · rw [if_neg hpar, xor_one_of_odd (by omega)]
        have e1 : (i / 2 + 2 ^ (k - 1)) * 2 - leaves.length = i - 1 := by omega
        have e2 : i - 1 + 1 = i := by omega
        rw [e1, e2]
    simp only [hidx0, hh0, hroot, Nat.shiftRight_one]
    rw [verifyLoop_provePath C leaves (build_merkle_nodes C leaves) heven
      hcorrect (k - 1) (i / 2) (by omega) (by omega)]
    rw [if_pos rfl]

/-- C1: for every power-of-two number of leaves `n ≥ 2`, every leaf sequence
of length `n`, and every index `i < n`, building the Merkle tree with
`MerkleTreeImpl::new`, generating a proof with `prove(i)` and checking it with
`verify(tree.root(), proof, i)` returns `Ok`. -/
theorem C1_merkle_prove_verify_ok {L D : Type} [DecidableEq D]
    (C : MerkleConfig L D) (leaves : List L) (k i : Nat)
    (hk : 1 ≤ k) (hn : leaves.length = 2 ^ k) (hi : i < leaves.length) :
    ∃ t p, MerkleTreeImpl.new C leaves = .ok t ∧
      MerkleTreeImpl.prove C t i = .ok p ∧
      MerkleTreeImpl.verify C (MerkleTreeImpl.root C t) p i = .ok () := by
  obtain ⟨t, p, h1, h2, h3, _⟩ := merkle_roundtrip_aux C leaves k i hk hn hi
  exact ⟨t, p, h1, h2, h3⟩

/-- A concrete configuration over natural-number leaves and digests used to
exercise the theorems on explicit inputs. -/
def natConfig : MerkleConfig Nat Nat :=
  { hash_leaves := fun a b => a + 2 * b + 5,
    hashNodes := fun a b => 3 * a + 5 * b + 7,
    dflt := 0,
    dleaf := 0 }

/-- Witness for C1 at a concrete input: four leaves, index 3. -/
theorem C1_witness :
    (1 ≤ 2 ∧ ([10, 20, 30, 40] : List Nat).length = 2 ^ 2 ∧
      3 < ([10, 20, 30, 40] : List Nat).length) ∧
    ∃ t p, MerkleTreeImpl.new natConfig [10, 20, 30, 40] = .ok t ∧
      MerkleTreeImpl.prove natConfig t 3 = .ok p ∧
      MerkleTreeImpl.verify natConfig (MerkleTreeImpl.root natConfig t) p 3 =
        .ok () :=
  ⟨⟨by norm_num, by norm_num, by norm_num⟩,
    C1_merkle_prove_verify_ok natConfig [10, 20, 30, 40] 2 3 (by norm_num)
      (by norm_num) (by norm_num)⟩

/-- C3: `MerkleTreeImpl::new(leaves)` with `n = leaves.len()` errors with
`TooFewLeaves{expected: 2, actual: n}` when `n < 2`, errors with
`NumberOfLeavesNotPowerOfTwo{n}` when `n ≥ 2` is not a power of two, succeeds
for every power of two `n ≥ 2`, and succeeds in no other case. -/
theorem C3_new_error_cases {L D : Type} (C : MerkleConfig L D)
    (leaves : List L) :
    (leaves.length < 2 →
      MerkleTreeImpl.new C leaves = .error (.TooFewLeaves 2 leaves.length)) ∧
    (2 ≤ leaves.length → (¬ ∃ k, leaves.length = 2 ^ k) →
      MerkleTreeImpl.new C leaves =
        .error (.NumberOfLeavesNotPowerOfTwo leaves.length)) ∧
    ((∃ k, 1 ≤ k ∧ leaves.length = 2 ^ k) →
      ∃ t, MerkleTreeImpl.new C leaves = .ok t) ∧
    (∀ t, MerkleTreeImpl.new C leaves = .ok t →
      ∃ k, 1 ≤ k ∧ leaves.length = 2 ^ k) := by
  refine ⟨?_, ?_, ?_, ?_⟩
  · intro hlt
    rw [MerkleTreeImpl.new, if_pos hlt]
  · intro hge hnp
    have hfalse : is_power_of_two leaves.length = false := by
      cases hb : is_power_of_two leaves.length
      · rfl
      · exact absurd ((is_power_of_two_iff _).1 hb) hnp
    rw [MerkleTreeImpl.new, if_neg (by omega), if_pos (by simp [hfalse])]
  · rintro ⟨k, hk, hn⟩
    have h2 : 2 ≤ leaves.length := by
      rw [hn]
      calc 2 = 2 ^ 1 := by norm_num
      _ ≤ 2 ^ k := Nat.pow_le_pow_right (by norm_num) hk
    have hp2 : is_power_of_two leaves.length = true :=
      (is_power_of_two_iff _).2 ⟨k, hn⟩
    exact ⟨⟨build_merkle_nodes C leaves, leaves⟩, by
      rw [MerkleTreeImpl.new, if_neg (by omega), if_neg (by simp [hp2])]⟩
  · intro t hok
    by_cases hlt : leaves.length < 2
    · rw [MerkleTreeImpl.new, if_pos hlt] at hok
      exact absurd hok (by simp)
    · by_cases hpw : is_power_of_two leaves.length = true
      · obtain ⟨k, hk⟩ := (is_power_of_two_iff _).1 hpw
        refine ⟨k, ?_, hk⟩
        by_contra hk0
        have : k = 0 := by omega
        rw [this] at hk
        norm_num at hk
        omega
      · rw [MerkleTreeImpl.new, if_neg hlt,
          if_pos (by simp [Bool.not_eq_true] at hpw; simp [hpw])] at hok
        exact absurd hok (by simp)

/-- Witness for C3 at concrete inputs: one leaf, six leaves, four leaves. -/
theorem C3_witness :
    MerkleTreeImpl.new natConfig [9] =
      .error (.TooFewLeaves 2 ([9] : List Nat).length) ∧
    MerkleTreeImpl.new natConfig [1, 2, 3, 4, 5, 6] =
      .error (.NumberOfLeavesNotPowerOfTwo
        ([1, 2, 3, 4, 5, 6] : List Nat).length) ∧
    ∃ t, MerkleTreeImpl.new natConfig [1, 2, 3, 4] = .ok t := by
  refine ⟨(C3_new_error_cases natConfig [9]).1 (by norm_num),
    (C3_new_error_cases natConfig [1, 2, 3, 4, 5, 6]).2.1 (by norm_num) ?_,
    (C3_new_error_cases natConfig [1, 2, 3, 4]).2.2.1 ⟨2, by norm_num, by norm_num⟩⟩
  rintro ⟨k, hk⟩
  have hk3 : k < 3 := by
    by_contra hge
    have h8 : 2 ^ 3 ≤ 2 ^ k := Nat.pow_le_pow_right (by norm_num) (by omega)
    norm_num at hk
    omega
  interval_cases k <;> norm_num at hk

/-- Semantics of `usize::next_power_of_two` (Rust std): the least power of two
greater than or equal to the argument, with `0` and `1` both mapping to `1`. -/
def next_power_of_two (t : Nat) : Nat := 2 ^ Nat.clog 2 t

/-- One worker's leaf-pair loop in the parallel build:
`for j in (0..batch_size).step_by(2)` writing
`nodes[(n + leaf_offset + j) / 2] = hash_leaves(&leaves[leaf_offset + j], &leaves[leaf_offset + j + 1])`,
as a recursion on the number of pairs processed (`j = 2 t`, ascending). -/
def workerLeafLoop {L D : Type} (C : MerkleConfig L D) (leaves : List L)
    (off : Nat) (nodes : Array D) : Nat → Array D
  | 0 => nodes
  | t + 1 =>
      (workerLeafLoop C leaves off nodes t).setD
        ((leaves.length + off + 2 * t) / 2)
        (C.hash_leaves (leaves.getD (off + 2 * t) C.dleaf)
          (leaves.getD (off + 2 * t + 1) C.dleaf))

/-- One worker's ascent in the parallel build:
`while start_idx >= num_subtrees { for k in (start_idx..start_idx+batch_size).rev() {..}; start_idx /= 2; batch_size /= 2 }`.
The build only runs this with `num_subtrees ≥ 1`, where the additional
`0 < start` guard agrees with the source's condition and makes the recursion
total. -/
def workerAscend {L D : Type} (C : MerkleConfig L D) (nodes : Array D)
    (S start batch : Nat) : Array D :=
  if h : 0 < start ∧ S ≤ start then
    workerAscend C (hashRangeRev C nodes start batch) S (start / 2) (batch / 2)
  else
    nodes
termination_by start
decreasing_by omega

/-- One worker of the parallel `build_merkle_nodes_default`: hash the leaf
pairs of its slice into the layer above the leaves, then ascend its subtree. -/
def workerBody {L D : Type} (C : MerkleConfig L D) (leaves : List L)
    (S i : Nat) (nodes : Array D) : Array D :=
  let n := leaves.length
  let batch_size := n / S
  let leaf_offset := batch_size * i
  workerAscend C
    (workerLeafLoop C leaves leaf_offset nodes ((batch_size + 1) / 2))
    S (n / 4 + (n / S / 4) * i) (n / S / 4)

/-- The `rayon::scope` of the parallel build, as a sequence of workers: each
worker writes a disjoint index range and reads only the shared leaves and its
own writes, so every schedule computes this function. -/
def runWorkers {L D : Type} (C : MerkleConfig L D) (leaves : List L)
    (S : Nat) (nodes : Array D) : Nat → Array D
  | 0 => nodes
  | i + 1 => workerBody C leaves S i (runWorkers C leaves S nodes i)

/-- Parallel `build_merkle_nodes_default` (merkle.rs, `feature = "parallel"`),
with the `rayon` thread count as a parameter: partition the leaves into
`min(threads.next_power_of_two(), n/2)` subtrees, let every worker hash its
slice and ascend, then hash the tip `for i in (1..num_subtrees).rev()`
sequentially. -/
def build_merkle_nodes_parallel {L D : Type} (C : MerkleConfig L D)
    (leaves : List L) (threads : Nat) : Array D :=
  let n := leaves.length
  let num_subtrees := min (next_power_of_two threads) (n / 2)
  hashRangeRev C
    (runWorkers C leaves num_subtrees (Array.mkArray n C.dflt) num_subtrees)
    1 (num_subtrees - 1)

/-- `workerLeafLoop` preserves the array size. -/
theorem workerLeafLoop_size {L D : Type} (C : MerkleConfig L D)
    (leaves : List L) (off : Nat) (nodes : Array D) (c : Nat) :
    (workerLeafLoop C leaves off nodes c).size = nodes.size := by
  induction c with
  | zero => rfl
  | succ c ih => rw [workerLeafLoop, Array.size_setD, ih]

/-- What one worker's leaf loop leaves at each index: the leaf-pair hash on
the worker's band of the layer above the leaves, the previous contents
elsewhere. -/
theorem workerLeafLoop_getD {L D : Type} (C : MerkleConfig L D)
    (leaves : List L) (off : Nat) (nodes : Array D) (c : Nat)
    (heven : leaves.length % 2 = 0) (hoff : off % 2 = 0)
    (hsz : leaves.length / 2 + off / 2 + c ≤ nodes.size) :
    ∀ j, (workerLeafLoop C leaves off nodes c).getD j C.dflt =
      if leaves.length / 2 + off / 2 ≤ j ∧ j < leaves.length / 2 + off / 2 + c
      then
        C.hash_leaves (leaves.getD (j * 2 - leaves.length) C.dleaf)
          (leaves.getD (j * 2 - leaves.length + 1) C.dleaf)
      else nodes.getD j C.dflt := by
  induction c with
  | zero =>
    intro j
    rw [if_neg (by omega)]
    rfl
  | succ c ih =>
    intro j
    rw [workerLeafLoop]
    have hw : (leaves.length + off + 2 * c) / 2 =
        leaves.length / 2 + off / 2 + c := by omega
    by_cases hj : j = leaves.length / 2 + off / 2 + c
    · rw [hw, ← hj]
      rw [getD_setD_self _ _ _ _ (by rw [workerLeafLoop_size]; omega)]
      rw [if_pos (by omega)]
      have e0 : off + 2 * c = j * 2 - leaves.length := by omega
      rw [e0]
    · rw [hw, getD_setD_ne _ _ _ _ _ (fun hh => hj hh.symm)]
      rw [ih (by omega) j]
      by_cases hin : leaves.length / 2 + off / 2 ≤ j ∧
          j < leaves.length / 2 + off / 2 + c
      · rw [if_pos hin, if_pos (by omega)]
      · rw [if_neg hin, if_neg (by omega)]

/-- An index determines the subtree band containing it: bands
`[2^d (2^s + i), 2^d (2^s + i + 1))` for distinct `(d, i)` with `i < 2^s` are
disjoint. Stated for `d ≤ d'`. -/
theorem band_unique_le {s d d' i i' j : Nat} (hi : i < 2 ^ s)
    (hi' : i' < 2 ^ s) (hdd : d ≤ d')
    (h1 : 2 ^ d * (2 ^ s + i) ≤ j) (h2 : j < 2 ^ d * (2 ^ s + i + 1))
    (h3 : 2 ^ d' * (2 ^ s + i') ≤ j) (h4 : j < 2 ^ d' * (2 ^ s + i' + 1)) :
    i = i' ∧ d = d' := by
  have hdiv : j / 2 ^ d = 2 ^ s + i := by
    apply Nat.div_eq_of_lt_le
    · rw [mul_comm]
      exact h1
    · calc j < 2 ^ d * (2 ^ s + i + 1) := h2
      _ = (2 ^ s + i + 1) * 2 ^ d := by ring
  have hdiv' : j / 2 ^ d' = 2 ^ s + i' := by
    apply Nat.div_eq_of_lt_le
    · rw [mul_comm]
      exact h3
    · calc j < 2 ^ d' * (2 ^ s + i' + 1) := h4
      _ = (2 ^ s + i' + 1) * 2 ^ d' := by ring
  have hchain : j / 2 ^ d' = (j / 2 ^ d) / 2 ^ (d' - d) := by
    rw [Nat.div_div_eq_div_mul, ← pow_add]
    congr 2
    omega
  rw [hdiv, hdiv'] at hchain
  by_cases hde : d' = d
  · subst hde
    refine ⟨by omega, rfl⟩
  · exfalso
    have hge1 : 1 ≤ d' - d := by omega
    have h2le : 2 ≤ 2 ^ (d' - d) := by
      calc (2 : Nat) = 2 ^ 1 := by norm_num
      _ ≤ 2 ^ (d' - d) := Nat.pow_le_pow_right (by norm_num) hge1
    have hmono : (2 ^ s + i) / 2 ^ (d' - d) ≤ (2 ^ s + i) / 2 :=
      Nat.div_le_div_left h2le (by norm_num)
    have hlt : (2 ^ s + i) / 2 < 2 ^ s := by omega
    omega

/-- Symmetric form of `band_unique_le`. -/
theorem band_unique {s d d' i i' j : Nat} (hi : i < 2 ^ s)
    (hi' : i' < 2 ^ s)
    (h1 : 2 ^ d * (2 ^ s + i) ≤ j) (h2 : j < 2 ^ d * (2 ^ s + i + 1))
    (h3 : 2 ^ d' * (2 ^ s + i') ≤ j) (h4 : j < 2 ^ d' * (2 ^ s + i' + 1)) :
    i = i' := by
  rcases le_total d d' with hdd | hdd
  · exact (band_unique_le hi hi' hdd h1 h2 h3 h4).1
  · exact ((band_unique_le hi' hi hdd h3 h4 h1 h2).1).symm

/-- A one-iteration `hashRangeRev` is a single write. -/
theorem hashRangeRev_one {L D : Type} (C : MerkleConfig L D)
    (nodes : Array D) (start : Nat) :
    hashRangeRev C nodes start 1 =
      nodes.setD start
        (C.hashNodes (nodes.getD (start * 2) C.dflt)
          (nodes.getD (start * 2 + 1) C.dflt)) := by
  show hashRangeRev C nodes start (0 + 1) = _
  rw [hashRangeRev]
  simp only [Nat.add_zero]
  rw [hashRangeRev]

/-- Correctness of one worker's ascent: entering at level `m` of its subtree
(whose root is node `2^s + i`), with the level below (band
`[2^(m+1) (2^s+i), 2^(m+1) (2^s+i+1))`) already holding `nodeSpec` values,
the ascent fills every level of the subtree up to its root and leaves every
index outside the subtree's bands untouched. -/
theorem workerAscend_correct {L D : Type} (C : MerkleConfig L D)
    (leaves : List L) (k s i : Nat) (hi : i < 2 ^ s)
    (hn : leaves.length = 2 ^ k) :
    ∀ (m : Nat) (nodes : Array D),
      nodes.size = leaves.length →
      s + m + 2 ≤ k →
      (∀ j, 2 ^ (m + 1) * (2 ^ s + i) ≤ j → j < 2 ^ (m + 1) * (2 ^ s + i + 1) →
        nodes.getD j C.dflt = nodeSpec C leaves j) →
      (∀ j, (∃ d, d ≤ m + 1 ∧ 2 ^ d * (2 ^ s + i) ≤ j ∧
            j < 2 ^ d * (2 ^ s + i + 1)) →
        (workerAscend C nodes (2 ^ s) (2 ^ m * (2 ^ s + i)) (2 ^ m)).getD j
          C.dflt = nodeSpec C leaves j) ∧
      (∀ j, (¬ ∃ d, d ≤ m ∧ 2 ^ d * (2 ^ s + i) ≤ j ∧
            j < 2 ^ d * (2 ^ s + i + 1)) →
        (workerAscend C nodes (2 ^ s) (2 ^ m * (2 ^ s + i)) (2 ^ m)).getD j
          C.dflt = nodes.getD j C.dflt) ∧
      (workerAscend C nodes (2 ^ s) (2 ^ m * (2 ^ s + i)) (2 ^ m)).size =
        nodes.size := by
  have hspos : 0 < 2 ^ s := pow_pos (by norm_num) s
  have hrpos : 0 < 2 ^ s + i := by omega
  intro m
  induction m with
  | zero =>
    intro nodes hsz hsk hbelow
    have hps1 : (2 : Nat) ^ (s + 1) = 2 * 2 ^ s := pow_succ' 2 s
    have hkbound : 2 ^ (s + 1) ≤ 2 ^ (k - 1) :=
      Nat.pow_le_pow_right (by norm_num) (by omega)
    have hhalf : leaves.length / 2 = 2 ^ (k - 1) := by
      have : (2 : Nat) ^ k = 2 * 2 ^ (k - 1) := by
        conv_lhs => rw [show k = (k - 1) + 1 by omega]
        rw [pow_succ']
      omega
    have hrlt : 2 ^ s + i < leaves.length / 2 := by omega
    have hwf : ∀ x : Array D,
        workerAscend C x (2 ^ s) (2 ^ 0 * (2 ^ s + i)) (2 ^ 0) =
          x.setD (2 ^ s + i)
            (C.hashNodes (x.getD ((2 ^ s + i) * 2) C.dflt)
              (x.getD ((2 ^ s + i) * 2 + 1) C.dflt)) := by
      intro x
      rw [workerAscend]
      rw [dif_pos (by
        refine ⟨by positivity, ?_⟩
        simp only [pow_zero, one_mul]
        omega)]
      rw [workerAscend]
      rw [dif_neg (by simp only [pow_zero, one_mul]; omega)]
      simp only [pow_zero, one_mul]
      rw [hashRangeRev_one]
    have hwrite : (nodes.setD (2 ^ s + i)
        (C.hashNodes (nodes.getD ((2 ^ s + i) * 2) C.dflt)
          (nodes.getD ((2 ^ s + i) * 2 + 1) C.dflt))).getD (2 ^ s + i) C.dflt =
        nodeSpec C leaves (2 ^ s + i) := by
      rw [getD_setD_self _ _ _ _ (by omega)]
      rw [hbelow ((2 ^ s + i) * 2) (by
            rw [pow_one]
            omega)
          (by
            rw [pow_one]
            omega),
        hbelow ((2 ^ s + i) * 2 + 1) (by
            rw [pow_one]
            omega)
          (by
            rw [pow_one]
            omega)]
      rw [nodeSpec_inner C leaves (2 ^ s + i) (by omega) hrlt]
    refine ⟨?_, ?_, ?_⟩
    · intro j hj
      obtain ⟨d, hd, hb1, hb2⟩ := hj
      rw [hwf]
      rcases Nat.le_one_iff_eq_zero_or_eq_one.mp hd with rfl | rfl
      · rw [pow_zero, one_mul] at hb1 hb2
        have : j = 2 ^ s + i := by omega
        rw [this]
        exact hwrite
      · rw [pow_one] at hb1 hb2
        rw [getD_setD_ne _ _ _ _ _ (by omega)]
        exact hbelow j (by rw [pow_one]; omega) (by rw [pow_one]; omega)
    · intro j hj
      rw [hwf]
      have hjr : j ≠ 2 ^ s + i := by
        intro hh
        exact hj ⟨0, by omega, by rw [pow_zero, one_mul]; omega,
          by rw [pow_zero, one_mul]; omega⟩
      rw [getD_setD_ne _ _ _ _ _ (fun hh => hjr hh.symm)]
    · rw [hwf, Array.size_setD]
  | succ m ih =>
    intro nodes hsz hsk hbelow
    simp only [show m + 1 + 1 = m + 2 from rfl] at hbelow
    have hpm : (2 : Nat) ^ (m + 1) = 2 * 2 ^ m := pow_succ' 2 m
    have hpm2 : (2 : Nat) ^ (m + 2) = 2 * 2 ^ (m + 1) := pow_succ' 2 (m + 1)
    have hmpos : 0 < 2 ^ m := pow_pos (by norm_num) m
    have hm1pos : 0 < 2 ^ (m + 1) := pow_pos (by norm_num) (m + 1)
    have hhalf : leaves.length / 2 = 2 ^ (k - 1) := by
      have : (2 : Nat) ^ k = 2 * 2 ^ (k - 1) := by
        conv_lhs => rw [show k = (k - 1) + 1 by omega]
        rw [pow_succ']
      omega
    have hband : 2 ^ (m + 1) * (2 ^ s + i) + 2 ^ (m + 1) =
        2 ^ (m + 1) * (2 ^ s + i + 1) := by ring
    have hub : 2 ^ (m + 1) * (2 ^ s + i + 1) ≤ leaves.length / 2 := by
      rw [hhalf]
      calc 2 ^ (m + 1) * (2 ^ s + i + 1) ≤ 2 ^ (m + 1) * (2 ^ (s + 1)) := by
            have : 2 ^ s + i + 1 ≤ 2 ^ (s + 1) := by
              rw [pow_succ']
              omega
            exact Nat.mul_le_mul_left _ this
      _ = 2 ^ (m + 1 + (s + 1)) := by rw [← pow_add]
      _ ≤ 2 ^ (k - 1) := Nat.pow_le_pow_right (by norm_num) (by omega)
    have hlevel : ∀ j, 2 ^ (m + 1) * (2 ^ s + i) ≤ j →
        j < 2 ^ (m + 1) * (2 ^ s + i) + 2 ^ (m + 1) →
        (hashRangeRev C nodes (2 ^ (m + 1) * (2 ^ s + i))
          (2 ^ (m + 1))).getD j C.dflt = nodeSpec C leaves j := by
      apply hashRangeRev_correct C leaves (2 ^ (m + 1)) nodes
        (2 ^ (m + 1) * (2 ^ s + i)) hsz
        (Nat.mul_pos hm1pos hrpos) (by omega)
      intro j hj1 hj2 hj3
      apply hbelow j
      · calc 2 ^ (m + 2) * (2 ^ s + i) = 2 * (2 ^ (m + 1) * (2 ^ s + i)) := by
              rw [hpm2]
              ring
        _ ≤ j := hj2
      · calc j < 2 * (2 ^ (m + 1) * (2 ^ s + i) + 2 ^ (m + 1)) := hj3
        _ = 2 ^ (m + 2) * (2 ^ s + i + 1) := by
              rw [hpm2]
              ring
    have hframe1 : ∀ j, (j < 2 ^ (m + 1) * (2 ^ s + i) ∨
        2 ^ (m + 1) * (2 ^ s + i) + 2 ^ (m + 1) ≤ j) →
        (hashRangeRev C nodes (2 ^ (m + 1) * (2 ^ s + i))
          (2 ^ (m + 1))).getD j C.dflt = nodes.getD j C.dflt :=
      fun j hj => hashRangeRev_frame C nodes _ _ j hj
    have hsz1 : (hashRangeRev C nodes (2 ^ (m + 1) * (2 ^ s + i))
        (2 ^ (m + 1))).size = leaves.length := by
      rw [hashRangeRev_size]
      exact hsz
    have hstep : workerAscend C nodes (2 ^ s) (2 ^ (m + 1) * (2 ^ s + i))
        (2 ^ (m + 1)) =
        workerAscend C (hashRangeRev C nodes (2 ^ (m + 1) * (2 ^ s + i))
          (2 ^ (m + 1))) (2 ^ s) (2 ^ m * (2 ^ s + i)) (2 ^ m) := by
      rw [workerAscend]
      rw [dif_pos (by
        constructor
        · positivity
        · calc 2 ^ s ≤ 2 ^ s + i := by omega
          _ ≤ 2 ^ (m + 1) * (2 ^ s + i) :=
              Nat.le_mul_of_pos_left _ hm1pos)]
      congr 1
      · rw [hpm, mul_assoc]
        exact Nat.mul_div_cancel_left _ (by norm_num)
      · rw [hpm]
        exact Nat.mul_div_cancel_left _ (by norm_num)
    have hIH := ih (hashRangeRev C nodes (2 ^ (m + 1) * (2 ^ s + i))
        (2 ^ (m + 1))) hsz1 (by omega)
      (by
        intro j hj1 hj2
        exact hlevel j hj1 (by omega))
    obtain ⟨hIH1, hIH2, hIH3⟩ := hIH
    have hgap : 2 ^ (m + 1) * (2 ^ s + i + 1) ≤ 2 ^ (m + 2) * (2 ^ s + i) := by
      rw [hpm2]
      calc 2 ^ (m + 1) * (2 ^ s + i + 1) ≤ 2 ^ (m + 1) * (2 * (2 ^ s + i)) :=
            Nat.mul_le_mul_left _ (by omega)
      _ = 2 * 2 ^ (m + 1) * (2 ^ s + i) := by ring
    refine ⟨?_, ?_, ?_⟩
    · intro j hj
      obtain ⟨d, hd, hb1, hb2⟩ := hj
      rw [hstep]
      by_cases hdm : d ≤ m + 1
      · exact hIH1 j ⟨d, hdm, hb1, hb2⟩
      · have hdeq : d = m + 2 := by omega
        subst hdeq
        have hout : ¬ ∃ d', d' ≤ m ∧ 2 ^ d' * (2 ^ s + i) ≤ j ∧
            j < 2 ^ d' * (2 ^ s + i + 1) := by
          rintro ⟨d', hd', hb1', hb2'⟩
          have hchain : 2 ^ d' * (2 ^ s + i + 1) ≤
              2 ^ (m + 1) * (2 ^ s + i + 1) :=
            Nat.mul_le_mul_right _
              (Nat.pow_le_pow_right (by norm_num) (by omega))
          omega
        rw [hIH2 j hout]
        rw [hframe1 j (by omega)]
        exact hbelow j (by omega) (by omega)
    · intro j hj
      rw [hstep]
      rw [hIH2 j (by
        rintro ⟨d', hd', hb1', hb2'⟩
        exact hj ⟨d', by omega, hb1', hb2'⟩)]
      apply hframe1 j
      by_cases hin : 2 ^ (m + 1) * (2 ^ s + i) ≤ j ∧
          j < 2 ^ (m + 1) * (2 ^ s + i) + 2 ^ (m + 1)
      · exact absurd ⟨m + 1, le_refl _, hin.1, by omega⟩ hj
      · omega
    · rw [hstep, hIH3, hashRangeRev_size]

/-- Correctness of one worker of the parallel build: it fills every band of
its subtree (rooted at node `2^s + i`, of height `k - s`) with `nodeSpec`
values and touches no other index. -/
theorem workerBody_correct {L D : Type} (C : MerkleConfig L D)
    (leaves : List L) (k s i : Nat) (hi : i < 2 ^ s) (hsk : s + 1 ≤ k)
    (hn : leaves.length = 2 ^ k) (nodes : Array D)
    (hsz : nodes.size = leaves.length) :
    (∀ j, (∃ d, d ≤ k - s - 1 ∧ 2 ^ d * (2 ^ s + i) ≤ j ∧
          j < 2 ^ d * (2 ^ s + i + 1)) →
      (workerBody C leaves (2 ^ s) i nodes).getD j C.dflt =
        nodeSpec C leaves j) ∧
    (∀ j, (¬ ∃ d, d ≤ k - s - 1 ∧ 2 ^ d * (2 ^ s + i) ≤ j ∧
          j < 2 ^ d * (2 ^ s + i + 1)) →
      (workerBody C leaves (2 ^ s) i nodes).getD j C.dflt =
        nodes.getD j C.dflt) ∧
    (workerBody C leaves (2 ^ s) i nodes).size = nodes.size := by
  have hspos : 0 < 2 ^ s := pow_pos (by norm_num) s
  have hunfold : workerBody C leaves (2 ^ s) i nodes =
      workerAscend C (workerLeafLoop C leaves (leaves.length / 2 ^ s * i) nodes
        ((leaves.length / 2 ^ s + 1) / 2)) (2 ^ s)
        (leaves.length / 4 + leaves.length / 2 ^ s / 4 * i)
        (leaves.length / 2 ^ s / 4) := rfl
  have hq : leaves.length / 2 ^ s = 2 ^ (k - s) := by
    rw [hn, Nat.pow_div (by omega) (by norm_num)]
  have hb1 : (2 : Nat) ^ (k - s) = 2 * 2 ^ (k - s - 1) := by
    conv_lhs => rw [show k - s = (k - s - 1) + 1 by omega]
    rw [pow_succ']
  have hc : (2 ^ (k - s) + 1) / 2 = 2 ^ (k - s - 1) := by omega
  have hkk : (2 : Nat) ^ k = 2 * 2 ^ (k - 1) := by
    conv_lhs => rw [show k = (k - 1) + 1 by omega]
    rw [pow_succ']
  have hk1 : (2 : Nat) ^ (k - 1) = 2 ^ (k - s - 1) * 2 ^ s := by
    rw [← pow_add]
    congr 1
    omega
  have hoffmod : 2 ^ (k - s) * i % 2 = 0 := by
    rw [hb1, mul_assoc]
    exact Nat.mul_mod_right 2 _
  have hoffdiv : 2 ^ (k - s) * i / 2 = 2 ^ (k - s - 1) * i := by
    rw [hb1, mul_assoc]
    exact Nat.mul_div_cancel_left _ (by norm_num)
  have heven : leaves.length % 2 = 0 := by
    rw [hn]
    omega
  have hhalf : leaves.length / 2 = 2 ^ (k - 1) := by
    rw [hn]
    omega
  have hstartband : leaves.length / 2 + 2 ^ (k - s) * i / 2 =
      2 ^ (k - s - 1) * (2 ^ s + i) := by
    rw [hhalf, hoffdiv, hk1]
    ring
  have hbandub : 2 ^ (k - s - 1) * (2 ^ s + i) + 2 ^ (k - s - 1) ≤
      leaves.length := by
    rw [hn, hkk, hk1]
    have : 2 ^ (k - s - 1) * (2 ^ s + i) + 2 ^ (k - s - 1) =
        2 ^ (k - s - 1) * (2 ^ s + i + 1) := by ring
    rw [this]
    calc 2 ^ (k - s - 1) * (2 ^ s + i + 1) ≤ 2 ^ (k - s - 1) * (2 * 2 ^ s) :=
          Nat.mul_le_mul_left _ (by omega)
    _ = 2 * (2 ^ (k - s - 1) * 2 ^ s) := by ring
  have hleaf : ∀ j,
      (workerLeafLoop C leaves (leaves.length / 2 ^ s * i) nodes
        ((leaves.length / 2 ^ s + 1) / 2)).getD j C.dflt =
      if 2 ^ (k - s - 1) * (2 ^ s + i) ≤ j ∧
          j < 2 ^ (k - s - 1) * (2 ^ s + i) + 2 ^ (k - s - 1) then
        C.hash_leaves (leaves.getD (j * 2 - leaves.length) C.dleaf)
          (leaves.getD (j * 2 - leaves.length + 1) C.dleaf)
      else nodes.getD j C.dflt := by
    intro j
    rw [hq, hc]
    rw [workerLeafLoop_getD C leaves _ nodes _ heven hoffmod
      (by rw [hstartband]; omega)]
    rw [hstartband]
  have hleafcorrect : ∀ j, 2 ^ (k - s - 1) * (2 ^ s + i) ≤ j →
      j < 2 ^ (k - s - 1) * (2 ^ s + i) + 2 ^ (k - s - 1) →
      (workerLeafLoop C leaves (leaves.length / 2 ^ s * i) nodes
        ((leaves.length / 2 ^ s + 1) / 2)).getD j C.dflt =
      nodeSpec C leaves j := by
    intro j hj1 hj2
    rw [hleaf j, if_pos ⟨hj1, hj2⟩]
    rw [nodeSpec_leaf C leaves j (by
      rw [hhalf, hk1]
      calc 2 ^ (k - s - 1) * 2 ^ s ≤ 2 ^ (k - s - 1) * (2 ^ s + i) :=
            Nat.mul_le_mul_left _ (by omega)
      _ ≤ j := hj1)]
  have hleafframe : ∀ j, (j < 2 ^ (k - s - 1) * (2 ^ s + i) ∨
      2 ^ (k - s - 1) * (2 ^ s + i) + 2 ^ (k - s - 1) ≤ j) →
      (workerLeafLoop C leaves (leaves.length / 2 ^ s * i) nodes
        ((leaves.length / 2 ^ s + 1) / 2)).getD j C.dflt =
      nodes.getD j C.dflt := by
    intro j hj
    rw [hleaf j, if_neg (by omega)]
  have hleafsize : (workerLeafLoop C leaves (leaves.length / 2 ^ s * i) nodes
      ((leaves.length / 2 ^ s + 1) / 2)).size = nodes.size :=
    workerLeafLoop_size C leaves _ nodes _
  by_cases hbb : k - s = 1
  · -- height-one subtrees: the ascent loop is never entered
    have hq4 : leaves.length / 2 ^ s / 4 = 0 := by
      rw [hq, hbb]
      norm_num
    have hstart4 : leaves.length / 4 < 2 ^ s := by
      rw [hn]
      have hks : k = s + 1 := by omega
      rw [hks, pow_succ']
      omega
    have hasc : workerAscend C (workerLeafLoop C leaves
        (leaves.length / 2 ^ s * i) nodes ((leaves.length / 2 ^ s + 1) / 2))
        (2 ^ s) (leaves.length / 4 + leaves.length / 2 ^ s / 4 * i)
        (leaves.length / 2 ^ s / 4) =
        workerLeafLoop C leaves (leaves.length / 2 ^ s * i) nodes
          ((leaves.length / 2 ^ s + 1) / 2) := by
      rw [workerAscend]
      rw [dif_neg (by rw [hq4]; simp only [Nat.zero_mul, Nat.add_zero]; omega)]
    rw [hunfold, hasc]
    have hzz : k - s - 1 = 0 := by omega
    have hd0 : ∀ j, (∃ d, d ≤ k - s - 1 ∧ 2 ^ d * (2 ^ s + i) ≤ j ∧
        j < 2 ^ d * (2 ^ s + i + 1)) ↔
        (2 ^ (k - s - 1) * (2 ^ s + i) ≤ j ∧
          j < 2 ^ (k - s - 1) * (2 ^ s + i) + 2 ^ (k - s - 1)) := by
      intro j
      rw [hzz]
      simp only [pow_zero, one_mul, Nat.le_zero]
      constructor
      · rintro ⟨d, hd, hb1', hb2'⟩
        subst hd
        rw [pow_zero, one_mul] at hb1' hb2'
        omega
      · intro hj
        exact ⟨0, rfl, by rw [pow_zero, one_mul]; omega,
          by rw [pow_zero, one_mul]; omega⟩
    refine ⟨?_, ?_, hleafsize⟩
    · intro j hj
      rw [hd0 j] at hj
      exact hleafcorrect j hj.1 hj.2
    · intro j hj
      rw [hd0 j] at hj
      exact hleafframe j (by omega)
  · -- height at least two: run the ascent from level `k - s - 2`
    have hbge2 : 2 ≤ k - s := by omega
    have hb2 : (2 : Nat) ^ (k - s) = 4 * 2 ^ (k - s - 2) := by
      conv_lhs => rw [show k - s = (k - s - 2) + 2 by omega]
      rw [pow_add]
      ring
    have hq4 : leaves.length / 2 ^ s / 4 = 2 ^ (k - s - 2) := by
      rw [hq, hb2]
      exact Nat.mul_div_cancel_left _ (by norm_num)
    have hk2 : (2 : Nat) ^ (k - 2) = 2 ^ (k - s - 2) * 2 ^ s := by
      rw [← pow_add]
      congr 1
      omega
    have hn4 : leaves.length / 4 = 2 ^ (k - 2) := by
      rw [hn]
      conv_lhs => rw [show k = (k - 2) + 2 by omega]
      rw [pow_add]
      rw [show (2 : Nat) ^ 2 = 4 by norm_num]
      exact Nat.mul_div_cancel _ (by norm_num)
    have hstarteq : leaves.length / 4 + leaves.length / 2 ^ s / 4 * i =
        2 ^ (k - s - 2) * (2 ^ s + i) := by
      rw [hn4, hq4, hk2]
      ring
    have hmid : k - s - 2 + 1 = k - s - 1 := by omega
    have hA := workerAscend_correct C leaves k s i hi hn (k - s - 2)
      (workerLeafLoop C leaves (leaves.length / 2 ^ s * i) nodes
        ((leaves.length / 2 ^ s + 1) / 2))
      (by rw [hleafsize]; exact hsz) (by omega)
      (by
        rw [hmid]
        intro j hj1 hj2
        exact hleafcorrect j hj1 (by
          have : 2 ^ (k - s - 1) * (2 ^ s + i + 1) =
              2 ^ (k - s - 1) * (2 ^ s + i) + 2 ^ (k - s - 1) := by ring
          omega))
    rw [hmid] at hA
    obtain ⟨hA1, hA2, hA3⟩ := hA
    rw [hunfold]
    rw [show workerAscend C (workerLeafLoop C leaves
        (leaves.length / 2 ^ s * i) nodes ((leaves.length / 2 ^ s + 1) / 2))
        (2 ^ s) (leaves.length / 4 + leaves.length / 2 ^ s / 4 * i)
        (leaves.length / 2 ^ s / 4) =
      workerAscend C (workerLeafLoop C leaves
        (leaves.length / 2 ^ s * i) nodes ((leaves.length / 2 ^ s + 1) / 2))
        (2 ^ s) (2 ^ (k - s - 2) * (2 ^ s + i)) (2 ^ (k - s - 2)) by
      rw [hstarteq, hq4]]
    refine ⟨?_, ?_, ?_⟩
    · intro j hj
      exact hA1 j hj
    · intro j hj
      rw [hA2 j (by
        rintro ⟨d, hd, hx1, hx2⟩
        exact hj ⟨d, by omega, hx1, hx2⟩)]
      apply hleafframe j
      by_cases hin : 2 ^ (k - s - 1) * (2 ^ s + i) ≤ j ∧
          j < 2 ^ (k - s - 1) * (2 ^ s + i) + 2 ^ (k - s - 1)
      · exfalso
        apply hj
        refine ⟨k - s - 1, by omega, hin.1, ?_⟩
        have : 2 ^ (k - s - 1) * (2 ^ s + i + 1) =
            2 ^ (k - s - 1) * (2 ^ s + i) + 2 ^ (k - s - 1) := by ring
        omega
      · omega
    · rw [hA3, hleafsize]

/-- Running the first `w` workers fills every band of the subtrees rooted at
`2^s .. 2^s + w - 1` with `nodeSpec` values. -/
theorem runWorkers_correct {L D : Type} (C : MerkleConfig L D)
    (leaves : List L) (k s : Nat) (hsk : s + 1 ≤ k)
    (hn : leaves.length = 2 ^ k) (nodes : Array D)
    (hsz : nodes.size = leaves.length) :
    ∀ w, w ≤ 2 ^ s →
      (∀ j, (∃ i, i < w ∧ ∃ d, d ≤ k - s - 1 ∧ 2 ^ d * (2 ^ s + i) ≤ j ∧
            j < 2 ^ d * (2 ^ s + i + 1)) →
        (runWorkers C leaves (2 ^ s) nodes w).getD j C.dflt =
          nodeSpec C leaves j) ∧
      (runWorkers C leaves (2 ^ s) nodes w).size = nodes.size := by
  intro w
  induction w with
  | zero =>
    intro _
    refine ⟨?_, rfl⟩
    rintro j ⟨i, hi, _⟩
    omega
  | succ w ih =>
    intro hw
    obtain ⟨ih1, ih2⟩ := ih (by omega)
    have hB := workerBody_correct C leaves k s w (by omega) hsk hn
      (runWorkers C leaves (2 ^ s) nodes w) (by rw [ih2]; exact hsz)
    obtain ⟨hB1, hB2, hB3⟩ := hB
    refine ⟨?_, ?_⟩
    · rintro j ⟨i, hi, d, hd, hj1, hj2⟩
      rw [runWorkers]
      by_cases hiw : i = w
      · subst hiw
        exact hB1 j ⟨d, hd, hj1, hj2⟩
      · rw [hB2 j (by
          rintro ⟨d', hd', hx1, hx2⟩
          exact hiw (band_unique (s := s) (by omega) (by omega)
            hj1 hj2 hx1 hx2))]
        exact ih1 j ⟨i, by omega, d, hd, hj1, hj2⟩
    · rw [runWorkers, hB3, ih2]

/-- Every index in `[2^s, 2^(s+b))` lies in exactly one worker band. -/
theorem band_cover (s : Nat) :
    ∀ b, 1 ≤ b → ∀ j, 2 ^ s ≤ j → j < 2 ^ (s + b) →
      ∃ i, i < 2 ^ s ∧ ∃ d, d ≤ b - 1 ∧ 2 ^ d * (2 ^ s + i) ≤ j ∧
        j < 2 ^ d * (2 ^ s + i + 1) := by
  intro b
  induction b with
  | zero => omega
  | succ b ih =>
    intro _ j hj1 hj2
    have hspos : 0 < 2 ^ s := pow_pos (by norm_num) s
    by_cases hbase : b = 0
    · subst hbase
      rw [show s + (0 + 1) = s + 1 from rfl] at hj2
      have hs1 : (2 : Nat) ^ (s + 1) = 2 * 2 ^ s := pow_succ' 2 s
      refine ⟨j - 2 ^ s, by omega, 0, by omega, ?_, ?_⟩
      · rw [pow_zero, one_mul]
        omega
      · rw [pow_zero, one_mul]
        omega
    · by_cases hsmall : j < 2 ^ (s + b)
      · obtain ⟨i, hi, d, hd, hx1, hx2⟩ := ih (by omega) j hj1 hsmall
        exact ⟨i, hi, d, by omega, hx1, hx2⟩
      · have hbpos : 0 < 2 ^ b := pow_pos (by norm_num) b
        have hq1 : 2 ^ s ≤ j / 2 ^ b := by
          rw [Nat.le_div_iff_mul_le hbpos]
          calc 2 ^ s * 2 ^ b = 2 ^ (s + b) := by rw [← pow_add]
          _ ≤ j := by omega
        have hq2 : j / 2 ^ b < 2 * 2 ^ s := by
          rw [Nat.div_lt_iff_lt_mul hbpos]
          calc j < 2 ^ (s + b + 1) := hj2
          _ = 2 * 2 ^ s * 2 ^ b := by
              rw [show s + b + 1 = 1 + s + b by omega, pow_add, pow_add]
              ring
        have hqe : 2 ^ s + (j / 2 ^ b - 2 ^ s) = j / 2 ^ b := by omega
        refine ⟨j / 2 ^ b - 2 ^ s, by omega, b, by omega, ?_, ?_⟩
        · rw [hqe, mul_comm]
          exact Nat.div_mul_le_self j (2 ^ b)
        · have he : 2 ^ s + (j / 2 ^ b - 2 ^ s) + 1 = j / 2 ^ b + 1 := by omega
          rw [he]
          calc j = 2 ^ b * (j / 2 ^ b) + j % 2 ^ b := (Nat.div_add_mod j (2 ^ b)).symm
          _ < 2 ^ b * (j / 2 ^ b) + 2 ^ b := by
              have := Nat.mod_lt j hbpos
              omega
          _ = 2 ^ b * (j / 2 ^ b + 1) := by ring

/-- The minimum of two powers of two is a power of two. -/
theorem min_pow_eq (a c : Nat) : min (2 ^ a) (2 ^ c) = 2 ^ min a c := by
  rcases le_total a c with h | h
  · rw [min_eq_left (Nat.pow_le_pow_right (by norm_num) h), min_eq_left h]
  · rw [min_eq_right (Nat.pow_le_pow_right (by norm_num) h), min_eq_right h]

/-- C2: for every power-of-two leaf count `n ≥ 2`, every leaf sequence and
every thread count, the parallel node-building routine produces a nodes array
identical at every index `1..n` to the sequential layer-by-layer build — in
particular the same root `nodes[1]`. -/
theorem C2_parallel_build_eq_sequential {L D : Type} (C : MerkleConfig L D)
    (leaves : List L) (threads k : Nat) (hk : 1 ≤ k)
    (hn : leaves.length = 2 ^ k) :
    ∀ j, 1 ≤ j → j < leaves.length →
      (build_merkle_nodes_parallel C leaves threads).getD j C.dflt =
      (build_merkle_nodes C leaves).getD j C.dflt := by
  intro j hj1 hj2
  rw [build_merkle_nodes_getD C leaves k hk hn j hj1 hj2]
  have hhalf : leaves.length / 2 = 2 ^ (k - 1) := by
    have : (2 : Nat) ^ k = 2 * 2 ^ (k - 1) := by
      conv_lhs => rw [show k = (k - 1) + 1 by omega]
      rw [pow_succ']
    rw [hn]
    omega
  have hS : min (next_power_of_two threads) (leaves.length / 2) =
      2 ^ min (Nat.clog 2 threads) (k - 1) := by
    rw [hhalf]
    exact min_pow_eq _ _
  have hunfold : build_merkle_nodes_parallel C leaves threads =
      hashRangeRev C
        (runWorkers C leaves
          (min (next_power_of_two threads) (leaves.length / 2))
          (Array.mkArray leaves.length C.dflt)
          (min (next_power_of_two threads) (leaves.length / 2)))
        1 (min (next_power_of_two threads) (leaves.length / 2) - 1) := rfl
  rw [hunfold, hS]
  set s := min (Nat.clog 2 threads) (k - 1) with hs
  have hsk : s + 1 ≤ k := by
    have : s ≤ k - 1 := min_le_right _ _
    omega
  have hspos : 0 < 2 ^ s := pow_pos (by norm_num) s
  have hsle : (2 : Nat) ^ s ≤ 2 ^ (k - 1) :=
    Nat.pow_le_pow_right (by norm_num) (min_le_right _ _)
  have hs1le : (2 : Nat) ^ (s + 1) ≤ 2 ^ k :=
    Nat.pow_le_pow_right (by norm_num) (by omega)
  have hps1 : (2 : Nat) ^ (s + 1) = 2 * 2 ^ s := pow_succ' 2 s
  have hRW := runWorkers_correct C leaves k s hsk hn
    (Array.mkArray leaves.length C.dflt) (Array.size_mkArray _ _)
    (2 ^ s) (le_refl _)
  obtain ⟨hRW1, hRW2⟩ := hRW
  have hworkers : ∀ m, 2 ^ s ≤ m → m < leaves.length →
      (runWorkers C leaves (2 ^ s) (Array.mkArray leaves.length C.dflt)
        (2 ^ s)).getD m C.dflt = nodeSpec C leaves m := by
    intro m hm1 hm2
    apply hRW1 m
    have := band_cover s (k - s) (by omega) m hm1 (by
      rw [show s + (k - s) = k by omega]
      omega)
    obtain ⟨i, hi, d, hd, hx1, hx2⟩ := this
    exact ⟨i, hi, d, hd, hx1, hx2⟩
  by_cases hjS : j < 2 ^ s
  · apply hashRangeRev_correct C leaves (2 ^ s - 1)
      (runWorkers C leaves (2 ^ s) (Array.mkArray leaves.length C.dflt)
        (2 ^ s)) 1
      (by rw [hRW2, Array.size_mkArray]) (le_refl _) (by omega)
    · intro m hm1 hm2 hm3
      exact hworkers m (by omega) (by omega)
    · omega
    · omega
  · rw [hashRangeRev_frame C _ 1 (2 ^ s - 1) j (by omega)]
    exact hworkers j (by omega) hj2

/-- Witness for C2 at a concrete input: four leaves, three threads, checked at
the root index. -/
theorem C2_witness :
    (1 ≤ 2 ∧ ([10, 20, 30, 40] : List Nat).length = 2 ^ 2) ∧
    (build_merkle_nodes_parallel natConfig [10, 20, 30, 40] 3).getD 1
        natConfig.dflt =
      (build_merkle_nodes natConfig [10, 20, 30, 40]).getD 1 natConfig.dflt :=
  ⟨⟨by norm_num, by norm_num⟩,
    C2_parallel_build_eq_sequential natConfig [10, 20, 30, 40] 3 2
      (by norm_num) (by norm_num) 1 (by norm_num) (by norm_num)⟩

/-- Modelled from the spec: `Matrix<F>` (mini-stark crate, outside the given
sources) is a column-major rectangle — an ordered sequence of columns of equal
length; `num_rows` is the common column length, and `read_row(i, out)` copies
row `i` in column order. -/
structure Matrix (F : Type) where
  cols : List (List F)
deriving DecidableEq

/-- Modelled from the spec: the common column length. -/
def Matrix.num_rows {F : Type} (m : Matrix F) : Nat := (m.cols.headD []).length

/-- Modelled from the spec: row `i` of the matrix, in column order — the
contents `read_row` places into the caller's buffer. -/
def Matrix.row {F : Type} (m : Matrix F) (i : Nat) (fdflt : F) : List F :=
  m.cols.map (fun c => c.getD i fdflt)

/-- `HashedLeafConfig<D>`: leaves are digests; `hash_leaves` hashes their
concatenation with the same two-update construction as internal nodes. -/
def HashedLeafConfig {D : Type} (hash2 : D → D → D) (dflt : D) :
    MerkleConfig D D :=
  { hash_leaves := hash2, hashNodes := hash2, dflt := dflt, dleaf := dflt }

/-- `MatrixMerkleTreeImpl<D>`: a Merkle tree over digest leaves. -/
structure MatrixMerkleTreeImpl (D : Type) where
  merkle_tree : MerkleTreeImpl D D

/-- `MatrixMerkleTreeImpl::new`: wrap the digests as leaves and delegate to
the Merkle constructor, propagating its error unchanged. -/
def MatrixMerkleTreeImpl.new {D : Type} (hash2 : D → D → D) (dflt : D)
    (leaves : List D) : Except MerkleError (MatrixMerkleTreeImpl D) :=
  (MerkleTreeImpl.new (HashedLeafConfig hash2 dflt) leaves).map (fun t => ⟨t⟩)

/-- `hash_rows`: one digest per matrix row, `h_i = Hash(serialize(row_i))`.
The serialization-and-digest of one row is abstracted into `hashRow`; the
chunked parallel loop writes each index exactly once, so it computes this
map. -/
def hash_rows {F D : Type} (hashRow : List F → D) (fdflt : F) (m : Matrix F) :
    List D :=
  (List.range m.num_rows).map (fun i => hashRow (m.row i fdflt))

/-- `MatrixMerkleTree::from_matrix` for `MatrixMerkleTreeImpl`: build the tree
from the row hashes and `.unwrap()` the result — `none` models the unwrap
panic on a construction error. -/
def MatrixMerkleTreeImpl.from_matrix {F D : Type} (hash2 : D → D → D)
    (dflt : D) (hashRow : List F → D) (fdflt : F) (m : Matrix F) :
    Option (MatrixMerkleTreeImpl D) :=
  (MatrixMerkleTreeImpl.new hash2 dflt (hash_rows hashRow fdflt m)).toOption

/-- `MatrixMerkleTreeImpl::root`, delegating to the inner tree. -/
def MatrixMerkleTreeImpl.root {D : Type} (hash2 : D → D → D) (dflt : D)
    (t : MatrixMerkleTreeImpl D) : D :=
  MerkleTreeImpl.root (HashedLeafConfig hash2 dflt) t.merkle_tree

/-- `MatrixMerkleTreeImpl::prove_row`, delegating to Merkle `prove`. -/
def MatrixMerkleTreeImpl.prove_row {D : Type} (hash2 : D → D → D) (dflt : D)
    (t : MatrixMerkleTreeImpl D) (row_idx : Nat) :
    Except MerkleError (MerkleProof D D) :=
  MerkleTreeImpl.prove (HashedLeafConfig hash2 dflt) t.merkle_tree row_idx

/-- `MatrixMerkleTreeImpl::verify_row`: rehash the row; reject with
`InvalidProof` unless the proof's leaf equals the row hash; otherwise delegate
to Merkle `verify`. -/
def MatrixMerkleTreeImpl.verify_row {F D : Type} [DecidableEq D]
    (hash2 : D → D → D) (dflt : D) (hashRow : List F → D)
    (root : D) (row_idx : Nat) (row : List F) (proof : MerkleProof D D) :
    Except MerkleError Unit :=
  if proof.leaf = hashRow row then
    MerkleTreeImpl.verify (HashedLeafConfig hash2 dflt) root proof row_idx
  else
    .error .InvalidProof

/-- Reading a mapped range list at an in-range index. -/
theorem getD_map_range {α : Type} (f : Nat → α) (n r : Nat) (d : α)
    (h : r < n) : ((List.range n).map f).getD r d = f r := by
  rw [List.getD_eq_getElem?_getD, List.getElem?_map, List.getElem?_range h]
  rfl

/-- C4: committing to a matrix with a power-of-two row count, proving a row
and verifying it against the root succeeds; and `verify_row` rejects with
`InvalidProof` any row whose hash differs from the proof's leaf, for every
root, without delegating to Merkle `verify`. -/
theorem C4_matrix_row_roundtrip {F D : Type} [DecidableEq D]
    (hash2 : D → D → D) (dflt : D) (hashRow : List F → D) (fdflt : F)
    (m : Matrix F) (k r : Nat) (hk : 1 ≤ k) (hrows : m.num_rows = 2 ^ k)
    (hr : r < m.num_rows) :
    (∃ t p,
      MatrixMerkleTreeImpl.from_matrix hash2 dflt hashRow fdflt m = some t ∧
      MatrixMerkleTreeImpl.prove_row hash2 dflt t r = .ok p ∧
      MatrixMerkleTreeImpl.verify_row hash2 dflt hashRow
        (MatrixMerkleTreeImpl.root hash2 dflt t) r (m.row r fdflt) p =
        .ok ()) ∧
    (∀ (root : D) (row : List F) (proof : MerkleProof D D),
      hashRow row ≠ proof.leaf →
      MatrixMerkleTreeImpl.verify_row hash2 dflt hashRow root r row proof =
        .error .InvalidProof) := by
  constructor
  · have hlen : (hash_rows hashRow fdflt m).length = 2 ^ k := by
      rw [hash_rows, List.length_map, List.length_range, hrows]
    obtain ⟨t0, p, hnew, hprove, hverify, hleaf⟩ :=
      merkle_roundtrip_aux (HashedLeafConfig hash2 dflt)
        (hash_rows hashRow fdflt m) k r hk hlen (by rw [hlen, ← hrows]; exact hr)
    refine ⟨⟨t0⟩, p, ?_, ?_, ?_⟩
    · rw [MatrixMerkleTreeImpl.from_matrix, MatrixMerkleTreeImpl.new, hnew]
      rfl
    · rw [MatrixMerkleTreeImpl.prove_row]
      exact hprove
    · rw [MatrixMerkleTreeImpl.verify_row]
      rw [if_pos (by
        rw [hleaf, hash_rows, getD_map_range _ _ _ _ hr])]
      exact hverify
  · intro root row proof hne
    rw [MatrixMerkleTreeImpl.verify_row, if_neg (fun hh => hne hh.symm)]

/-- Witness for C4 at a concrete input: a two-column, two-row matrix,
row index 1, plus a rejected mismatched row. -/
theorem C4_witness :
    (1 ≤ 1 ∧ (Matrix.mk [[1, 2], [3, 4]] : Matrix Nat).num_rows = 2 ^ 1 ∧
      1 < (Matrix.mk [[1, 2], [3, 4]] : Matrix Nat).num_rows) ∧
    ((∃ t p,
      MatrixMerkleTreeImpl.from_matrix (fun a b : Nat => 2 * a + 3 * b + 1) 0
        (fun row : List Nat => row.sum * 10 + row.length)
        0 (Matrix.mk [[1, 2], [3, 4]]) = some t ∧
      MatrixMerkleTreeImpl.prove_row (fun a b : Nat => 2 * a + 3 * b + 1) 0
        t 1 = .ok p ∧
      MatrixMerkleTreeImpl.verify_row (fun a b : Nat => 2 * a + 3 * b + 1) 0
        (fun row : List Nat => row.sum * 10 + row.length)
        (MatrixMerkleTreeImpl.root (fun a b : Nat => 2 * a + 3 * b + 1) 0 t) 1
        ((Matrix.mk [[1, 2], [3, 4]] : Matrix Nat).row 1 0) p = .ok ()) ∧
    (∀ (root : Nat) (row : List Nat) (proof : MerkleProof Nat Nat),
      (fun row : List Nat => row.sum * 10 + row.length) row ≠ proof.leaf →
      MatrixMerkleTreeImpl.verify_row (fun a b : Nat => 2 * a + 3 * b + 1) 0
        (fun row : List Nat => row.sum * 10 + row.length) root 1 row proof =
        .error .InvalidProof)) :=
  ⟨⟨by norm_num, by decide, by decide⟩,
    C4_matrix_row_roundtrip (fun a b : Nat => 2 * a + 3 * b + 1) 0
      (fun row : List Nat => row.sum * 10 + row.length) 0
      (Matrix.mk [[1, 2], [3, 4]]) 1 1 (by norm_num) (by decide) (by decide)⟩

/-- C9 counterexample: for a one-row matrix, the inner constructor reports
`TooFewLeaves{expected: 2, actual: 1}`, but `from_matrix` unwraps and aborts
(`none` models the panic) instead of returning the error. -/
theorem C9_counterexample :
    MatrixMerkleTreeImpl.from_matrix (fun a b : Nat => 2 * a + 3 * b + 1) 0
      (fun row : List Nat => row.sum) 0 (Matrix.mk [[5]]) = none ∧
    MatrixMerkleTreeImpl.new (fun a b : Nat => 2 * a + 3 * b + 1) 0
      (hash_rows (fun row : List Nat => row.sum) 0 (Matrix.mk [[5]])) =
      .error (.TooFewLeaves 2 1) := by
  constructor
  · rfl
  · rfl

/-- C9 amended: Merkle construction errors are propagated unchanged by the
inner `MatrixMerkleTreeImpl::new`, but `from_matrix` unwraps that result, so
for a row count below two or not a power of two it aborts (panics) instead of
returning the error. -/
theorem C9_amended_unwrap_aborts {F D : Type} (hash2 : D → D → D) (dflt : D)
    (hashRow : List F → D) (fdflt : F) (m : Matrix F)
    (hbad : m.num_rows < 2 ∨ ¬ ∃ k, m.num_rows = 2 ^ k) :
    MatrixMerkleTreeImpl.from_matrix hash2 dflt hashRow fdflt m = none ∧
    ∃ e, MatrixMerkleTreeImpl.new hash2 dflt (hash_rows hashRow fdflt m) =
      .error e := by
  have hlen : (hash_rows hashRow fdflt m).length = m.num_rows := by
    rw [hash_rows, List.length_map, List.length_range]
  have herr : ∃ e, MerkleTreeImpl.new (HashedLeafConfig hash2 dflt)
      (hash_rows hashRow fdflt m) = .error e := by
    by_cases h2 : (hash_rows hashRow fdflt m).length < 2
    · exact ⟨.TooFewLeaves 2 (hash_rows hashRow fdflt m).length,
        by rw [MerkleTreeImpl.new, if_pos h2]⟩
    · have hnp : ¬ ∃ k, m.num_rows = 2 ^ k := by
        rcases hbad with hlt | hnp
        · omega
        · exact hnp
      have hfalse : is_power_of_two (hash_rows hashRow fdflt m).length =
          false := by
        cases hb : is_power_of_two (hash_rows hashRow fdflt m).length
        · rfl
        · obtain ⟨k, hk⟩ := (is_power_of_two_iff _).1 hb
          rw [hlen] at hk
          exact absurd ⟨k, hk⟩ hnp
      exact ⟨.NumberOfLeavesNotPowerOfTwo (hash_rows hashRow fdflt m).length,
        by rw [MerkleTreeImpl.new, if_neg h2, if_pos (by simp [hfalse])]⟩
  obtain ⟨e, he⟩ := herr
  refine ⟨?_, e, ?_⟩
  · rw [MatrixMerkleTreeImpl.from_matrix, MatrixMerkleTreeImpl.new, he]
    rfl
  · rw [MatrixMerkleTreeImpl.new, he]
    rfl

/-- Witness for the amended C9 at a concrete input: a one-row matrix. -/
theorem C9_witness :
    ((Matrix.mk [[5]] : Matrix Nat).num_rows < 2) ∧
    (MatrixMerkleTreeImpl.from_matrix (fun a b : Nat => a + b) 0
      (fun row : List Nat => row.sum) 0 (Matrix.mk [[5]]) = none ∧
    ∃ e, MatrixMerkleTreeImpl.new (fun a b : Nat => a + b) 0
      (hash_rows (fun row : List Nat => row.sum) 0 (Matrix.mk [[5]])) =
      .error e) :=
  ⟨by decide,
    C9_amended_unwrap_aborts (fun a b : Nat => a + b) 0
      (fun row : List Nat => row.sum) 0 (Matrix.mk [[5]])
      (Or.inl (by decide))⟩

/-- `ProofOptions` (prover.rs): query count and blowup factor. -/
structure ProofOptions where
  num_queries : Nat
  blowup_factor : Nat
deriving DecidableEq

/-- `Proof` (prover.rs): options, trace info and the commitments vector
(`Vec<u64>`); the trace-info type is abstract. -/
structure Proof (TI : Type) where
  options : ProofOptions
  trace_info : TI
  commitments : List Nat

/-- `ProvingError` (prover.rs): a single generic fatal kind. -/
inductive ProvingError where
  | Fail
deriving DecidableEq

/-- Modelled from the spec: a constraint's
`evaluate_symbolic(challenges, trace_step, trace_lde)` returns a single
LDE-domain column (the `Constraint` type lives outside the given sources). -/
structure Constraint (F : Type) where
  evaluate_symbolic : List F → Nat → Matrix F → List F

/-- Modelled from the spec: the `Air` collaborator interface (§6) — blowup
factors, challenge count, the three constraint families with their divisors,
the two domains (of abstract type `DOM`), and the debug `validate` check. -/
structure AirModel (F DOM : Type) where
  lde_blowup_factor : Nat
  ce_blowup_factor : Nat
  num_challenges : Nat
  boundary_constraints : List (Constraint F)
  transition_constraints : List (Constraint F)
  terminal_constraints : List (Constraint F)
  boundary_constraint_divisor : List F
  transition_constraint_divisor : List F
  terminal_constraint_divisor : List F
  trace_domain : DOM
  lde_domain : DOM
  validate_ok : List F → Matrix F → Bool

/-- Modelled from the spec: the `Trace` collaborator — trace info, base
columns, and the optional challenge-derived extension columns. -/
structure TraceModel (F TI : Type) where
  info : TI
  base_columns : Matrix F
  build_extension_columns : List F → Option (Matrix F)

/-- Modelled from the spec: the prover's collaborators — its options, the
public-input derivation, AIR construction, the `PolyEngine` interpolate and
evaluate, the row commitment (only its root is observed downstream), and the
channel's challenge draw, a deterministic function of the transcript of
absorbed roots (§4.2). -/
structure ProverModel (F TI PI D DOM : Type) where
  options : ProofOptions
  get_pub_inputs : TraceModel F TI → PI
  air_new : TI → PI → ProofOptions → AirModel F DOM
  interpolate_columns : Matrix F → DOM → Matrix F
  evaluate : Matrix F → DOM → Matrix F
  commit_to_rows : Matrix F → D
  draw_challenges : List D → Nat → List F

/-- Modelled from the spec: `append` concatenates the columns of two matrices
of equal row count. -/
def Matrix.append {F : Type} (m other : Matrix F) : Matrix F :=
  ⟨m.cols ++ other.cols⟩

/-- Modelled from the spec: `Matrix::join` concatenates the column lists of a
sequence of matrices. -/
def Matrix.join {F : Type} (ms : List (Matrix F)) : Matrix F :=
  ⟨(ms.map Matrix.cols).join⟩

/-- Modelled from the spec: `sum_columns` — a single-column matrix holding
the pointwise sum of all columns. -/
def Matrix.sum_columns {F : Type} [Add F] [Zero F] (m : Matrix F) : Matrix F :=
  ⟨[(List.range m.num_rows).map
      (fun j => (m.cols.map (fun c => c.getD j 0)).sum)]⟩

/-- `Prover::generate_quotients`: multiply every evaluation column pointwise
by the divisor vector, in place. The `MulPowStage` kernel semantics — after
`commit()` and `wait_until_completed()` the host matrix holds the pointwise
product — is modelled from the spec (§4.4). -/
def generate_quotients {F : Type} [Mul F] (all_evaluations : Matrix F)
    (divisor : List F) : Matrix F :=
  ⟨all_evaluations.cols.map (fun c => List.zipWith (· * ·) c divisor)⟩

/-- `Prover::build_constraint_commitment`: fetch the three divisors, form the
quotients, join them in the order boundary–transition–terminal, sum the
columns, then interpolate the result over the LDE domain and commit to its
rows. Returns `(combined_lde, combined_poly, lde_merkle_tree)`. -/
def build_constraint_commitment {F TI PI D DOM : Type} [Add F] [Zero F]
    [Mul F] (P : ProverModel F TI PI D DOM) (air : AirModel F DOM)
    (boundary_constraint_evals transition_constraint_evals
      terminal_constraint_evals : Matrix F) :
    Matrix F × Matrix F × D :=
  let all_quotients := Matrix.join
    [generate_quotients boundary_constraint_evals
        air.boundary_constraint_divisor,
      generate_quotients transition_constraint_evals
        air.transition_constraint_divisor,
      generate_quotients terminal_constraint_evals
        air.terminal_constraint_divisor]
  let eval_matrix := all_quotients.sum_columns
  (eval_matrix, P.interpolate_columns eval_matrix air.lde_domain,
    P.commit_to_rows eval_matrix)

/-- `Prover::evaluate_constraints`: evaluate every constraint symbolically
with `trace_step = self.options().blowup_factor` and join the resulting
single-column matrices. -/
def evaluate_constraints {F : Type} (options : ProofOptions)
    (challenges : List F) (constraints : List (Constraint F))
    (trace_lde : Matrix F) : Matrix F :=
  Matrix.join (constraints.map (fun constraint =>
    ⟨[constraint.evaluate_symbolic challenges options.blowup_factor
        trace_lde]⟩))

/-- `Prover::build_trace_commitment`: interpolate over the trace domain,
evaluate on the LDE domain, commit to the rows; returns `(lde, polys, tree)`. -/
def build_trace_commitment {F TI PI D DOM : Type}
    (P : ProverModel F TI PI D DOM) (trace : Matrix F)
    (trace_domain lde_domain : DOM) : Matrix F × Matrix F × D :=
  let trace_polys := P.interpolate_columns trace trace_domain
  let trace_lde := P.evaluate trace_polys lde_domain
  (trace_lde, trace_polys, P.commit_to_rows trace_lde)

/-- Outcome of a `generate_proof` run: a panic (`assert!` or `validate`), a
returned `ProvingError`, or success — the latter carrying the run's
observables: the proof, the Merkle roots committed to the channel, and the
challenge vector drawn. -/
inductive ProverOutcome (F TI D : Type) where
  | panicked
  | failed (e : ProvingError)
  | ok (proof : Proof TI) (committed_roots : List D) (challenges : List F)

/-- `Prover::generate_proof` (prover.rs 164–232): construct the AIR, check
the blowup ordering with `assert!` (a panic in every build profile), commit
to the base trace and absorb its root, draw the challenges, optionally build
and absorb an extension-trace commitment, run `air.validate`, evaluate the
three constraint families, build the composition commitment, and return a
`Proof` whose commitments vector is empty. -/
def generate_proof {F TI PI D DOM : Type} [Add F] [Zero F] [Mul F]
    (P : ProverModel F TI PI D DOM) (trace : TraceModel F TI) :
    ProverOutcome F TI D :=
  let options := P.options
  let trace_info := trace.info
  let pub_inputs := P.get_pub_inputs trace
  let air := P.air_new trace_info pub_inputs options
  if air.lde_blowup_factor < air.ce_blowup_factor then
    .panicked
  else
    let r0 := build_trace_commitment P trace.base_columns air.trace_domain
      air.lde_domain
    let transcript0 := [r0.2.2]
    let challenges := P.draw_challenges transcript0 air.num_challenges
    let step :=
      match trace.build_extension_columns challenges with
      | some extension_matrix =>
          let r1 := build_trace_commitment P extension_matrix air.trace_domain
            air.lde_domain
          (r0.1.append r1.1, r0.2.1.append r1.2.1, transcript0 ++ [r1.2.2])
      | none => (r0.1, r0.2.1, transcript0)
    if ! air.validate_ok challenges (P.evaluate step.2.1 air.trace_domain) then
      .panicked
    else
      let boundary_constraint_evals := evaluate_constraints options challenges
        air.boundary_constraints step.1
      let transition_constraint_evals := evaluate_constraints options
        challenges air.transition_constraints step.1
      let terminal_constraint_evals := evaluate_constraints options challenges
        air.terminal_constraints step.1
      let _composition := build_constraint_commitment P air
        boundary_constraint_evals transition_constraint_evals
        terminal_constraint_evals
      .ok { options := options, trace_info := trace_info, commitments := [] }
        step.2.2 challenges

/-- Reading a `zipWith` list at an in-range index. -/
theorem getD_zipWith {α β γ : Type} (f : α → β → γ) :
    ∀ (l1 : List α) (l2 : List β) (j : Nat) (d1 : α) (d2 : β) (d3 : γ),
      j < l1.length → j < l2.length →
      (List.zipWith f l1 l2).getD j d3 = f (l1.getD j d1) (l2.getD j d2) := by
  intro l1
  induction l1 with
  | nil =>
    intro l2 j _ _ _ h1 _
    simp at h1
  | cons a l1 ih =>
    intro l2 j d1 d2 d3 h1 h2
    cases l2 with
    | nil => simp at h2
    | cons b l2 =>
      cases j with
      | zero => rfl
      | succ j =>
        simp only [List.zipWith_cons_cons, List.getD_cons_succ]
        simp only [List.length_cons] at h1 h2
        exact ih l2 j d1 d2 d3 (by omega) (by omega)

/-- C5: `build_constraint_commitment` pointwise-multiplies every column of
the boundary, transition and terminal evaluation matrices by the matching
divisor vector, joins the quotients column-wise in the order
boundary–transition–terminal and applies `sum_columns`: the committed
evaluation matrix is a single column of length `L` whose entries are the
pointwise sums over all quotient columns; the Merkle commitment is taken over
exactly that matrix. -/
theorem C5_composition_single_column {F TI PI D DOM : Type} [AddCommMonoid F]
    [Mul F] (P : ProverModel F TI PI D DOM) (air : AirModel F DOM)
    (b t e : Matrix F) (Ln : Nat)
    (hb : ∀ c ∈ b.cols, c.length = Ln)
    (ht : ∀ c ∈ t.cols, c.length = Ln)
    (he : ∀ c ∈ e.cols, c.length = Ln)
    (hbd : air.boundary_constraint_divisor.length = Ln)
    (htd : air.transition_constraint_divisor.length = Ln)
    (hed : air.terminal_constraint_divisor.length = Ln)
    (hne : b.cols ≠ [] ∨ t.cols ≠ [] ∨ e.cols ≠ []) :
    ∃ col, (build_constraint_commitment P air b t e).1.cols = [col] ∧
      col.length = Ln ∧
      (∀ j, j < Ln → col.getD j 0 =
        ((b.cols.map (fun c =>
            c.getD j 0 * air.boundary_constraint_divisor.getD j 0)).sum +
          (t.cols.map (fun c =>
            c.getD j 0 * air.transition_constraint_divisor.getD j 0)).sum) +
        (e.cols.map (fun c =>
          c.getD j 0 * air.terminal_constraint_divisor.getD j 0)).sum) ∧
      (build_constraint_commitment P air b t e).2.2 =
        P.commit_to_rows (build_constraint_commitment P air b t e).1 := by
  have h1 : (build_constraint_commitment P air b t e).1 =
      (Matrix.join [generate_quotients b air.boundary_constraint_divisor,
        generate_quotients t air.transition_constraint_divisor,
        generate_quotients e air.terminal_constraint_divisor]).sum_columns :=
    rfl
  have hJcols : (Matrix.join [generate_quotients b
      air.boundary_constraint_divisor,
      generate_quotients t air.transition_constraint_divisor,
      generate_quotients e air.terminal_constraint_divisor]).cols =
      b.cols.map (fun c => List.zipWith (· * ·) c
        air.boundary_constraint_divisor) ++
      (t.cols.map (fun c => List.zipWith (· * ·) c
        air.transition_constraint_divisor) ++
      e.cols.map (fun c => List.zipWith (· * ·) c
        air.terminal_constraint_divisor)) := by
    simp [Matrix.join, generate_quotients]
  have hall : ∀ c ∈ (Matrix.join [generate_quotients b
      air.boundary_constraint_divisor,
      generate_quotients t air.transition_constraint_divisor,
      generate_quotients e air.terminal_constraint_divisor]).cols,
      c.length = Ln := by
    intro c hc
    rw [hJcols] at hc
    rcases List.mem_append.1 hc with hc1 | hc2
    · obtain ⟨c0, hc0, rfl⟩ := List.mem_map.1 hc1
      rw [List.length_zipWith, hb c0 hc0, hbd]
      omega
    · rcases List.mem_append.1 hc2 with hc3 | hc4
      · obtain ⟨c0, hc0, rfl⟩ := List.mem_map.1 hc3
        rw [List.length_zipWith, ht c0 hc0, htd]
        omega
      · obtain ⟨c0, hc0, rfl⟩ := List.mem_map.1 hc4
        rw [List.length_zipWith, he c0 hc0, hed]
        omega
  have hnonempty : (Matrix.join [generate_quotients b
      air.boundary_constraint_divisor,
      generate_quotients t air.transition_constraint_divisor,
      generate_quotients e air.terminal_constraint_divisor]).cols ≠ [] := by
    rw [hJcols]
    rcases hne with hh | hh | hh
    · intro hcon
      rcases List.append_eq_nil.1 hcon with ⟨hx, _⟩
      exact hh (List.map_eq_nil.1 hx)
    · intro hcon
      rcases List.append_eq_nil.1 hcon with ⟨_, hy⟩
      rcases List.append_eq_nil.1 hy with ⟨hx, _⟩
      exact hh (List.map_eq_nil.1 hx)
    · intro hcon
      rcases List.append_eq_nil.1 hcon with ⟨_, hy⟩
      rcases List.append_eq_nil.1 hy with ⟨_, hx⟩
      exact hh (List.map_eq_nil.1 hx)
  have hnum : (Matrix.join [generate_quotients b
      air.boundary_constraint_divisor,
      generate_quotients t air.transition_constraint_divisor,
      generate_quotients e air.terminal_constraint_divisor]).num_rows = Ln := by
    obtain ⟨c0, rest, hcons⟩ := List.exists_cons_of_ne_nil hnonempty
    rw [Matrix.num_rows, hcons]
    exact hall c0 (by rw [hcons]; exact List.mem_cons_self c0 rest)
  refine ⟨(List.range Ln).map (fun j =>
      ((Matrix.join [generate_quotients b air.boundary_constraint_divisor,
        generate_quotients t air.transition_constraint_divisor,
        generate_quotients e air.terminal_constraint_divisor]).cols.map
          (fun c => c.getD j 0)).sum), ?_, ?_, ?_, rfl⟩
  · rw [h1, Matrix.sum_columns, hnum]
  · rw [List.length_map, List.length_range]
  · intro j hj
    rw [getD_map_range _ _ _ _ hj]
    rw [hJcols]
    rw [List.map_append, List.map_append, List.sum_append, List.sum_append]
    rw [List.map_map, List.map_map, List.map_map]
    have hBmap : ∀ (x : Matrix F) (dv : List F),
        (∀ c ∈ x.cols, c.length = Ln) → dv.length = Ln →
        x.cols.map ((fun c => c.getD j 0) ∘
          (fun c => List.zipWith (· * ·) c dv)) =
        x.cols.map (fun c => c.getD j 0 * dv.getD j 0) := by
      intro x dv hx hdv
      apply List.map_congr_left
      intro c hc
      simp only [Function.comp]
      exact getD_zipWith _ c dv j 0 0 0 (by rw [hx c hc]; exact hj)
        (by rw [hdv]; exact hj)
    rw [hBmap b air.boundary_constraint_divisor hb hbd,
      hBmap t air.transition_constraint_divisor ht htd,
      hBmap e air.terminal_constraint_divisor he hed]
    rw [add_assoc]

/-- A concrete prover instance over integers, parameterized by the AIR's two
blowup factors, used to exercise the pipeline theorems on explicit inputs. -/
def intProver (lde ce : Nat) : ProverModel Int Unit Unit Nat Unit :=
  { options := ⟨1, 2⟩,
    get_pub_inputs := fun _ => (),
    air_new := fun _ _ _ =>
      { lde_blowup_factor := lde,
        ce_blowup_factor := ce,
        num_challenges := 1,
        boundary_constraints := [],
        transition_constraints := [],
        terminal_constraints := [],
        boundary_constraint_divisor := [1, 1],
        transition_constraint_divisor := [1, 1],
        terminal_constraint_divisor := [1, 1],
        trace_domain := (),
        lde_domain := (),
        validate_ok := fun _ _ => true },
    interpolate_columns := fun m _ => m,
    evaluate := fun m _ => m,
    commit_to_rows := fun m => m.cols.length,
    draw_challenges := fun tr n => List.replicate n (tr.length : Int) }

/-- A concrete two-column trace with no extension columns. -/
def intTrace : TraceModel Int Unit :=
  { info := (),
    base_columns := ⟨[[1, 1], [2, 2]]⟩,
    build_extension_columns := fun _ => none }

/-- C6: `generate_proof` is deterministic — two runs over identical inputs
return the same proof, commit the same Merkle roots to the channel and draw
the same challenge vector. The model has no source of nondeterminism: the
channel's draws are a function of the absorbed roots alone. -/
theorem C6_generate_proof_deterministic {F TI PI D DOM : Type} [Add F]
    [Zero F] [Mul F] (P : ProverModel F TI PI D DOM)
    (trace : TraceModel F TI) {p1 p2 : Proof TI} {r1 r2 : List D}
    {c1 c2 : List F}
    (h1 : generate_proof P trace = .ok p1 r1 c1)
    (h2 : generate_proof P trace = .ok p2 r2 c2) :
    p1 = p2 ∧ r1 = r2 ∧ c1 = c2 := by
  rw [h1] at h2
  injection h2 with hp hr hc
  exact ⟨hp, hr, hc⟩

/-- Witness for C6: a concrete run of the pipeline, compared with itself. -/
theorem C6_witness :
    generate_proof (intProver 2 2) intTrace =
      .ok ⟨⟨1, 2⟩, (), []⟩ [2] [(1 : Int)] ∧
    ((⟨⟨1, 2⟩, (), []⟩ : Proof Unit) = ⟨⟨1, 2⟩, (), []⟩ ∧
      ([2] : List Nat) = [2] ∧ ([(1 : Int)] : List Int) = [1]) :=
  ⟨rfl, C6_generate_proof_deterministic (intProver 2 2) intTrace rfl rfl⟩

/-- A constraint that reports the `trace_step` it receives as its evaluation
column. -/
def stepObserver : Constraint Int := ⟨fun _ step _ => [(step : Int)]⟩

/-- C7 counterexample: with `options.blowup_factor = 2` but an AIR whose
`lde_blowup_factor()` is 4 (nothing ties the two together), the constraint
receives `trace_step = 2` — the evaluation matrix differs from the one the
claim predicts with `trace_step = air.lde_blowup_factor()`. -/
theorem C7_counterexample :
    ((intProver 4 2).air_new () ()
      (intProver 4 2).options).lde_blowup_factor = 4 ∧
    (intProver 4 2).options.blowup_factor = 2 ∧
    evaluate_constraints (intProver 4 2).options [] [stepObserver] ⟨[]⟩ =
      Matrix.mk [[(2 : Int)]] ∧
    evaluate_constraints (intProver 4 2).options [] [stepObserver] ⟨[]⟩ ≠
      Matrix.join ([stepObserver].map (fun c => Matrix.mk
        [c.evaluate_symbolic [] (((intProver 4 2).air_new () ()
          (intProver 4 2).options).lde_blowup_factor) ⟨[]⟩])) := by
  refine ⟨rfl, rfl, rfl, ?_⟩
  decide

/-- C7 amended: the `trace_step` argument passed to every constraint's
`evaluate_symbolic` is the prover's `options.blowup_factor`; it equals the
AIR's `lde_blowup_factor()` whenever the AIR's LDE blowup factor agrees with
the options' blowup factor. -/
theorem C7_amended_trace_step {F DOM : Type} (options : ProofOptions)
    (air : AirModel F DOM) (challenges : List F)
    (constraints : List (Constraint F)) (trace_lde : Matrix F)
    (hagree : air.lde_blowup_factor = options.blowup_factor) :
    evaluate_constraints options challenges constraints trace_lde =
      Matrix.join (constraints.map (fun constraint =>
        ⟨[constraint.evaluate_symbolic challenges air.lde_blowup_factor
            trace_lde]⟩)) := by
  rw [hagree]
  rfl

/-- Witness for the amended C7 on a concrete AIR that sets its LDE blowup
factor to the options' blowup factor. -/
theorem C7_witness :
    (((intProver 2 2).air_new () ()
        (intProver 2 2).options).lde_blowup_factor =
      (intProver 2 2).options.blowup_factor) ∧
    evaluate_constraints (intProver 2 2).options [] [stepObserver] ⟨[]⟩ =
      Matrix.join ([stepObserver].map (fun c => Matrix.mk
        [c.evaluate_symbolic [] (((intProver 2 2).air_new () ()
          (intProver 2 2).options).lde_blowup_factor) ⟨[]⟩])) :=
  ⟨rfl, C7_amended_trace_step (intProver 2 2).options
    ((intProver 2 2).air_new () () (intProver 2 2).options) [] [stepObserver]
    ⟨[]⟩ rfl⟩

/-- C8 counterexample: with `ce_blowup_factor = 4 > lde_blowup_factor = 2`
the prover panics (the `assert!` fires in release builds too) and never
returns a `ProvingError`. -/
theorem C8_counterexample :
    generate_proof (intProver 2 4) intTrace =
      (.panicked : ProverOutcome Int Unit Nat) ∧
    ∀ e, generate_proof (intProver 2 4) intTrace ≠ .failed e := by
  refine ⟨rfl, ?_⟩
  intro e h
  exact ProverOutcome.noConfusion h

/-- C8 amended: in every build profile, if the AIR's constraint-evaluation
blowup factor exceeds its LDE blowup factor, `generate_proof` panics on the
`assert!`; it does not return a `ProvingError` to the caller. -/
theorem C8_amended_assert_panics {F TI PI D DOM : Type} [Add F] [Zero F]
    [Mul F] (P : ProverModel F TI PI D DOM) (trace : TraceModel F TI)
    (h : (P.air_new trace.info (P.get_pub_inputs trace)
        P.options).lde_blowup_factor <
      (P.air_new trace.info (P.get_pub_inputs trace)
        P.options).ce_blowup_factor) :
    generate_proof P trace = .panicked := by
  simp only [generate_proof]
  rw [if_pos h]

/-- Witness for the amended C8 at the concrete mis-ordered AIR. -/
theorem C8_witness :
    (((intProver 2 4).air_new intTrace.info
        ((intProver 2 4).get_pub_inputs intTrace)
        (intProver 2 4).options).lde_blowup_factor <
      ((intProver 2 4).air_new intTrace.info
        ((intProver 2 4).get_pub_inputs intTrace)
        (intProver 2 4).options).ce_blowup_factor) ∧
    generate_proof (intProver 2 4) intTrace =
      (.panicked : ProverOutcome Int Unit Nat) :=
  ⟨by decide, C8_amended_assert_panics (intProver 2 4) intTrace (by decide)⟩

/-- C10: whenever `generate_proof` returns `Ok`, the emitted proof carries
the prover's options and the trace's info, and its commitments vector is
empty — none of the Merkle roots committed during the pipeline is included. -/
theorem C10_proof_commitments_empty {F TI PI D DOM : Type} [Add F] [Zero F]
    [Mul F] (P : ProverModel F TI PI D DOM) (trace : TraceModel F TI)
    {p : Proof TI} {roots : List D} {challenges : List F}
    (h : generate_proof P trace = .ok p roots challenges) :
    p.commitments = [] ∧ p.options = P.options ∧ p.trace_info = trace.info := by
  simp only [generate_proof] at h
  split at h
  · exact absurd h (by simp)
  · split at h
    · exact absurd h (by simp)
    · cases h
      exact ⟨rfl, rfl, rfl⟩

/-- Witness for C10 at a concrete successful run. -/
theorem C10_witness :
    generate_proof (intProver 2 2) intTrace =
      .ok ⟨⟨1, 2⟩, (), []⟩ [2] [(1 : Int)] ∧
    ((⟨⟨1, 2⟩, (), []⟩ : Proof Unit).commitments = [] ∧
      (⟨⟨1, 2⟩, (), []⟩ : Proof Unit).options = (intProver 2 2).options ∧
      (⟨⟨1, 2⟩, (), []⟩ : Proof Unit).trace_info = intTrace.info) :=
  ⟨rfl, C10_proof_commitments_empty (intProver 2 2) intTrace rfl⟩

/-- Witness for C5 at concrete matrices over the integers. -/
theorem C5_witness :
    ((∀ c ∈ (Matrix.mk [[1, 2], [3, 4]] : Matrix Int).cols, c.length = 2) ∧
      (∀ c ∈ (Matrix.mk [[5, 6]] : Matrix Int).cols, c.length = 2) ∧
      (∀ c ∈ (Matrix.mk [] : Matrix Int).cols, c.length = 2)) ∧
    ∃ col, (build_constraint_commitment (intProver 2 2)
        ((intProver 2 2).air_new () () (intProver 2 2).options)
        (Matrix.mk [[1, 2], [3, 4]]) (Matrix.mk [[5, 6]])
        (Matrix.mk [])).1.cols = [col] ∧
      col.length = 2 ∧
      (∀ j, j < 2 → col.getD j 0 =
        (((Matrix.mk [[1, 2], [3, 4]] : Matrix Int).cols.map (fun c =>
            c.getD j 0 * (((intProver 2 2).air_new () ()
              (intProver 2 2).options).boundary_constraint_divisor.getD j 0))).sum +
          ((Matrix.mk [[5, 6]] : Matrix Int).cols.map (fun c =>
            c.getD j 0 * (((intProver 2 2).air_new () ()
              (intProver 2 2).options).transition_constraint_divisor.getD j 0))).sum) +
        ((Matrix.mk [] : Matrix Int).cols.map (fun c =>
          c.getD j 0 * (((intProver 2 2).air_new () ()
            (intProver 2 2).options).terminal_constraint_divisor.getD j 0))).sum) ∧
      (build_constraint_commitment (intProver 2 2)
        ((intProver 2 2).air_new () () (intProver 2 2).options)
        (Matrix.mk [[1, 2], [3, 4]]) (Matrix.mk [[5, 6]])
        (Matrix.mk [])).2.2 =
        (intProver 2 2).commit_to_rows (build_constraint_commitment
          (intProver 2 2) ((intProver 2 2).air_new () ()
            (intProver 2 2).options) (Matrix.mk [[1, 2], [3, 4]])
          (Matrix.mk [[5, 6]]) (Matrix.mk [])).1 :=
  ⟨⟨by decide, by decide, by decide⟩,
    C5_composition_single_column (intProver 2 2)
      ((intProver 2 2).air_new () () (intProver 2 2).options)
      (Matrix.mk [[1, 2], [3, 4]]) (Matrix.mk [[5, 6]]) (Matrix.mk []) 2
      (by decide) (by decide) (by decide) (by decide) (by decide) (by decide)
      (Or.inl (by decide))⟩

end MiniStark
